import Mathlib

/-!
Verification of the micro web framework (src/micro.go): routing data model,
path-pattern compilation, freezing, flushing of controller collections,
request matching and the dispatch chain.

Modelling conventions.

Strings: Go strings are byte strings; all strings occurring in the claims are
ASCII, so we model them as List Char and convert String literals at the edges.

Maps: Go map lookup returns the zero value for missing keys; we model
map[string]string as an association list with a lookup that defaults to the
empty string, and map[string]interface-value with opaque Nat values.

Panics: Go panics (log.Panic, MustCompile failure, MustBeCallable) are modelled
by Option-returning functions, none meaning the call panics.

Pointers: Go routes and collections are pointers; the public API prevents
sharing a collection under two parents (the hasParent guard), and a route
returned by All/Get/... is mutated before any other observation, so we model
both as plain values.
-/

/-- Str models a Go string as a list of characters. -/
abbrev Str := List Char

/-- S converts a Lean string literal to the Str model. -/
def S (s : String) : Str := s.toList

/-- isWordChar models the RE2 character class backslash-w, which is the ASCII
set of letters, digits and underscore. -/
def isWordChar (c : Char) : Bool := c.isAlphanum || c = '_'

/-- lookupD models Go map[string]string lookup: a missing key yields the zero
value, the empty string. -/
def lookupD (m : List (Str × Str)) (k : Str) : Str :=
  match m with
  | [] => []
  | (k0, v0) :: rest => if k0 = k then v0 else lookupD rest k

/-- insertD models Go map assignment m[k] = v for string-valued maps. -/
def insertD (m : List (Str × Str)) (k : Str) (v : Str) : List (Str × Str) :=
  match m with
  | [] => [(k, v)]
  | (k0, v0) :: rest => if k0 = k then (k0, v) :: rest else (k0, v0) :: insertD rest k v

/-- lookupA models Go map[string]interface lookup for route attributes; values
are opaque and modelled as Nat. A missing key yields none (Go: nil). -/
def lookupA (m : List (Str × Nat)) (k : Str) : Option Nat :=
  match m with
  | [] => none
  | (k0, v0) :: rest => if k0 = k then some v0 else lookupA rest k

/-- insertA models Go map assignment m[k] = v for attribute maps. -/
def insertA (m : List (Str × Nat)) (k : Str) (v : Nat) : List (Str × Nat) :=
  match m with
  | [] => [(k, v)]
  | (k0, v0) :: rest => if k0 = k then (k0, v) :: rest else (k0, v0) :: insertA rest k v

/-- lookupEH models Go map[int]HandlerFunction lookup (error handlers keyed by
status code); handlers are opaque Nat identifiers; missing keys yield none. -/
def lookupEH (m : List (Nat × Nat)) (k : Nat) : Option Nat :=
  match m with
  | [] => none
  | (k0, v0) :: rest => if k0 = k then some v0 else lookupEH rest k

/-- insertEH models Go map assignment for the error handler map. -/
def insertEH (m : List (Nat × Nat)) (k : Nat) (v : Nat) : List (Nat × Nat) :=
  match m with
  | [] => [(k, v)]
  | (k0, v0) :: rest => if k0 = k then (k0, v) :: rest else (k0, v0) :: insertEH rest k v

/-!
Path scanning.

The source declares
  Pattern = (?:\:)(\w+)(\?)?|(\(.+\)?)
and scans a declared route path with FindAllStringSubmatch and
ReplaceAllStringFunc. Go regexp uses leftmost-first (Perl style) semantics, so
on this fixed pattern the scan is equivalent to the following direct scan,
which we use as the model:

either alternative can only start at a colon or an opening parenthesis;
at a colon followed by at least one word character the first alternative
matches the colon, the maximal run of word characters (submatch 1) and, if
present, one question mark; at an opening parenthesis followed by at least one
character the second alternative matches, and since dot-plus is greedy and
matches every character except newline while the closing parenthesis is
optional, the match always extends from the parenthesis to the next newline or
the end of the path. All other characters are left unmatched. Scanning resumes
immediately after each match.
-/

/-- Tok is one piece of a scanned route path: an unmatched literal character, a
named parameter match (colon form, with its optionality flag), or a raw
parenthesized-group match (the full matched text, starting with the opening
parenthesis). -/
inductive Tok where
  | lit (c : Char)
  | param (nm : Str) (opt : Bool)
  | grp (content : Str)
deriving DecidableEq

/-- tokenize scans a declared path exactly as FindAllStringSubmatch with the
fixed route-variable Pattern does (see the comment block above). -/
def tokenize : Str → List Tok
  | [] => []
  | c :: rest =>
    if c = ':' then
      if rest.takeWhile isWordChar = [] then .lit ':' :: tokenize rest
      else
        if (rest.drop (rest.takeWhile isWordChar).length).head? = some '?' then
          .param (rest.takeWhile isWordChar) true ::
            tokenize (rest.drop (rest.takeWhile isWordChar).length).tail
        else
          .param (rest.takeWhile isWordChar) false ::
            tokenize (rest.drop (rest.takeWhile isWordChar).length)
    else if c = '(' then
      if rest.takeWhile (fun d => d ≠ '\n') = [] then .lit '(' :: tokenize rest
      else
        .grp ('(' :: rest.takeWhile (fun d => d ≠ '\n')) ::
          tokenize (rest.drop (rest.takeWhile (fun d => d ≠ '\n')).length)
    else .lit c :: tokenize rest
termination_by s => s.length
decreasing_by
  all_goals simp_all [List.length_drop]
  all_goals omega

/-- isMatchTok is true for the tokens that correspond to regexp matches (the
entries of FindAllStringSubmatch), as opposed to unmatched literal text. -/
def isMatchTok : Tok → Bool
  | .lit _ => false
  | .param _ _ => true
  | .grp _ => true

/-- matchStr reconstructs the matched text match[0] of a match token. -/
def matchStr : Tok → Str
  | .lit c => [c]
  | .param nm opt => ':' :: nm ++ (if opt then ['?'] else [])
  | .grp content => content

/-- digitChar is the decimal digit character for n below ten. -/
def digitChar (n : Nat) : Char := Char.ofNat (48 + n)

/-- natDigits is the decimal representation of a natural number, modelling the
Go format verb for integers in Sprintf. -/
def natDigits (n : Nat) : Str :=
  if n < 10 then [digitChar n] else natDigits (n / 10) ++ [digitChar (n % 10)]
decreasing_by exact Nat.div_lt_self (by omega) (by omega)

/-- paramsLoop models the loop in Route.freeze over the match list: a match
whose text starts with a colon records submatch 1 (the parameter name), any
other match records the decimal representation of its index in the match list.
The counter i is the index of the first element of the remaining list. -/
def paramsLoop (i : Nat) : List Tok → List Str
  | [] => []
  | t :: ts =>
    (if (matchStr t).head? = some ':' then
       match t with
       | .param nm _ => nm
       | _ => []
     else natDigits i) :: paramsLoop (i + 1) ts

/-- paramsFromPath models the route-variable extraction of Route.freeze
(micro.go lines 363-375). -/
def paramsFromPath (p : Str) : List Str :=
  paramsLoop 0 ((tokenize p).filter isMatchTok)

/-- DefaultParamPat is the source constant DefaultParamPattern, the default
regexp fragment substituted for a route parameter. -/
def DefaultParamPat : Str := S "(\\w+)"

/-- firstWord models FindAllString with the word-run regexp applied to a match:
it returns the first maximal run of word characters, or the empty string if
there is none. -/
def firstWord : Str → Str
  | [] => []
  | c :: r => if isWordChar c then c :: r.takeWhile isWordChar else firstWord r

/-- tokRepl models the replacement function passed to ReplaceAllStringFunc in
Route.freeze (micro.go lines 377-398): unmatched text is kept; for a match, if
the first word of the matched text has a non-empty assertion the assertion
replaces the match (wrapped in question marks when the match ends in one);
otherwise a match that both starts with an opening and ends with a closing
parenthesis is kept verbatim; otherwise the default parameter pattern is
substituted, wrapped in question marks when the match ends in one. -/
def tokRepl (assertions : List (Str × Str)) (t : Tok) : Str :=
  match t with
  | .lit c => [c]
  | _ =>
    let m := matchStr t
    let fw := firstWord m
    let a := lookupD assertions fw
    if fw ≠ [] ∧ a ≠ [] then
      (if m.getLast? = some '?' then '?' :: a ++ ['?'] else a)
    else if m.head? = some '(' ∧ m.getLast? = some ')' then m
    else if m.getLast? = some '?' then '?' :: DefaultParamPat ++ ['?']
    else DefaultParamPat

/-- compilePathPattern models the construction of the compiled pattern string
in Route.freeze (micro.go lines 377-407): replace every match, then anchor the
result at the start; if the replaced string ends in a slash make that slash
optional, otherwise append an optional slash; finally append an end anchor
unless the route is a passthrough route. -/
def compilePathPattern (assertions : List (Str × Str)) (passthrough : Bool) (p : Str) : Str :=
  let sp := (tokenize p).flatMap (tokRepl assertions)
  let sp := if sp.getLast? = some '/' then '^' :: sp ++ ['?'] else '^' :: sp ++ ['/', '?']
  if passthrough then sp else sp ++ ['$']

/-- dropWhile_length_le bounds the length of dropWhile by the input length. -/
theorem dropWhile_length_le (p : Char → Bool) (l : Str) :
    (l.dropWhile p).length ≤ l.length := by
  induction l with
  | nil => simp [List.dropWhile]
  | cons c r ih =>
    simp only [List.dropWhile]
    by_cases h : p c = true
    · simp [h]; omega
    · simp [h]

/-- sanitizeName models the default route name computation: every maximal run
of non-word characters in the input is replaced by one underscore. -/
def sanitizeName : Str → Str
  | [] => []
  | c :: r =>
    if isWordChar c then c :: sanitizeName r
    else '_' :: sanitizeName (r.dropWhile (fun d => !isWordChar d))
termination_by s => s.length
decreasing_by
  · simp
  · exact Nat.lt_succ_of_le (dropWhile_length_le _ _)

/-- fmtStrList models the Go Sprint rendering of a string slice: the elements
separated by spaces, between square brackets. -/
def fmtStrList (ms : List Str) : Str :=
  '[' :: (List.intercalate [' '] ms) ++ [']']

/-- Handler models a HandlerFunction value: an opaque identifier plus whether
the value is callable (IsCallable). -/
structure Handler where
  id : Nat
  callable : Bool
deriving DecidableEq

/-- Route models the Route struct of micro.go. The compiled regexp pattern is
represented by its pattern string (patternStr); mPat and mMeths represent the
two matchers installed by freeze (the pattern matcher keeps the compiled
pattern, the method matcher keeps a copy of the methods at freeze time); all
are none until the route is frozen, modelling the empty matcher slice and nil
pattern of an unfrozen route. -/
structure Route where
  methods : List Str
  patternStr : Option Str
  path : Str
  handlerFunc : Handler
  params : List Str
  frozen : Bool
  assertions : List (Str × Str)
  attributes : List (Str × Nat)
  name : Str
  passthrough : Bool
  mPat : Option Str
  mMeths : Option (List Str)
deriving DecidableEq

/-- newRoute models NewRoute: a route with the given path, no methods, no
params, empty assertion and attribute maps, and the zero-value non-callable
handler (the Go code stores an empty slice, which is not callable). -/
def newRoute (p : Str) : Route :=
  { methods := [], patternStr := none, path := p, handlerFunc := ⟨0, false⟩,
    params := [], frozen := false, assertions := [], attributes := [],
    name := [], passthrough := false, mPat := none, mMeths := none }

/-- setName models Route.SetName: a no-op on a frozen route. -/
def setName (nm : Str) (r : Route) : Route :=
  if r.frozen then r else { r with name := nm }

/-- setHandler models Route.SetHandler: a no-op on a frozen route; otherwise
the handler must be callable (MustBeCallable panics, modelled by none). -/
def setHandler (h : Handler) (r : Route) : Option Route :=
  if r.frozen then some r
  else if h.callable then some { r with handlerFunc := h } else none

/-- setMethods models Route.SetMethods: a no-op on a frozen route. -/
def setMethods (ms : List Str) (r : Route) : Route :=
  if r.frozen then r else { r with methods := ms }

/-- assertParam models Route.Assert: a no-op on a frozen route; otherwise the
fragment is wrapped in parentheses and stored in the assertion map. The
MustCompile validity check on the wrapped fragment concerns regexp syntax
outside the model and is not represented; no claim depends on it. -/
def assertParam (nm : Str) (pat : Str) (r : Route) : Route :=
  if r.frozen then r
  else { r with assertions := insertD r.assertions nm ('(' :: pat ++ [')']) }

/-- setAttribute models Route.SetAttribute, which stores the attribute without
checking the frozen flag. -/
def setAttribute (k : Str) (v : Nat) (r : Route) : Route :=
  { r with attributes := insertA r.attributes k v }

/-- freezeRoute models Route.freeze: on an unfrozen route it appends the
extracted route variables to params, compiles the pattern string, computes the
default name if none is set, installs the two matchers and sets the frozen
flag. The possibility that MustCompile rejects the built pattern string (for
example a path with an unbalanced parenthesis) is outside the model. -/
def freezeRoute (r : Route) : Route :=
  if r.frozen then r
  else
    { r with
      params := r.params ++ paramsFromPath r.path,
      patternStr := some (compilePathPattern r.assertions r.passthrough r.path),
      name := if r.name = [] then sanitizeName (r.path ++ '_' :: fmtStrList r.methods) else r.name,
      mPat := some (compilePathPattern r.assertions r.passthrough r.path),
      mMeths := some r.methods,
      frozen := true }

/-- toUpperStr models strings.ToUpper on the ASCII strings used for HTTP
methods. -/
def toUpperStr (s : Str) : Str := s.map Char.toUpper

/-- methodMatcherMatch models MethodMatcher.Match (micro.go lines 809-821): an
empty method list accepts every request method; otherwise some stored method
must equal the request method after both are upper-cased. -/
def methodMatcherMatch (methods : List Str) (reqMethod : Str) : Bool :=
  if methods.isEmpty then true
  else methods.any (fun m => toUpperStr m = toUpperStr reqMethod)

/-!
Regular expression engine.

The compiled pattern strings built by freeze are handed to regexp.MustCompile
and used through MatchString and FindStringSubmatch. We model the regexp
engine for the fragment that freeze produces: literal characters, the word
and any-character classes, grouping, alternation, option, plus and star
postfix operators, a start anchor as first character and an end anchor as last
character. Matching is modelled by Brzozowski derivatives and proved
equivalent to a standard language semantics below. Constructs outside this
fragment (character classes in user assertion fragments, mid-pattern anchors,
named groups) are not produced by freeze for the paths in the claims and are
lexed as plain literals.
-/

/-- CCls is a character class: the word class (backslash-w), the digit class
(backslash-d) or the any-character class (dot, every character but newline). -/
inductive CCls where
  | word
  | digit
  | anyc
deriving DecidableEq

/-- clsTest decides membership of a character in a class. -/
def clsTest : CCls → Char → Bool
  | .word, c => isWordChar c
  | .digit, c => c.isDigit
  | .anyc, c => c ≠ '\n'

/-- RE is the abstract syntax of the modelled regexp fragment. Capture groups
do not affect acceptance, so grouping is not represented in the syntax. -/
inductive RE where
  | emp
  | eps
  | lit (c : Char)
  | cls (k : CCls)
  | cat (a b : RE)
  | alt (a b : RE)
  | star (a : RE)
deriving DecidableEq

/-- nullable is true when the regular expression accepts the empty string. -/
def nullable : RE → Bool
  | .emp => false
  | .eps => true
  | .lit _ => false
  | .cls _ => false
  | .cat a b => nullable a && nullable b
  | .alt a b => nullable a || nullable b
  | .star _ => true

/-- derivC is the Brzozowski derivative with respect to one character. -/
def derivC (r : RE) (c : Char) : RE :=
  match r with
  | .emp => .emp
  | .eps => .emp
  | .lit d => if d = c then .eps else .emp
  | .cls k => if clsTest k c then .eps else .emp
  | .cat a b =>
    if nullable a then .alt (.cat (derivC a c) b) (derivC b c)
    else .cat (derivC a c) b
  | .alt a b => .alt (derivC a c) (derivC b c)
  | .star a => .cat (derivC a c) (.star a)

/-- fullMatch decides whether the whole string is in the language. -/
def fullMatch (r : RE) (s : Str) : Bool := nullable (s.foldl derivC r)

/-- prefMatch decides whether some prefix of the string is in the language,
which is MatchString semantics for a pattern anchored only at the start. -/
def prefMatch (r : RE) : Str → Bool
  | [] => nullable r
  | c :: cs => nullable r || prefMatch (derivC r c) cs

/-- LMem is the standard language semantics of the regexp syntax. -/
inductive LMem : RE → Str → Prop where
  | eps : LMem .eps []
  | lit (c : Char) : LMem (.lit c) [c]
  | cls {k c} (h : clsTest k c = true) : LMem (.cls k) [c]
  | catm {a b u v} (ha : LMem a u) (hb : LMem b v) : LMem (.cat a b) (u ++ v)
  | altl {a b s} (h : LMem a s) : LMem (.alt a b) s
  | altr {a b s} (h : LMem b s) : LMem (.alt a b) s
  | star0 {a} : LMem (.star a) []
  | stars {a u v} (hu : LMem a u) (hv : LMem (.star a) v) : LMem (.star a) (u ++ v)

/-!
Pattern-string parsing. The compiled pattern built by freeze is a string;
regexp.MustCompile turns it into a matcher. We model that step by lexing the
string into atoms and operators and folding them through a stack machine into
the RE syntax. A leading caret is the start anchor and a final dollar the end
anchor; both are handled by compiledMatches below, not by the lexer.
-/

/-- PostOp is a postfix repetition operator. -/
inductive PostOp where
  | quest
  | plusP
  | starQ
deriving DecidableEq

/-- applyPostOp applies a postfix operator to the preceding atom. -/
def applyPostOp : PostOp → RE → RE
  | .quest, a => .alt .eps a
  | .plusP, a => .cat a (.star a)
  | .starQ, a => .star a

/-- postOpChar is the literal character of a postfix operator, used for the
degenerate case of an operator with no preceding atom. -/
def postOpChar : PostOp → Char
  | .quest => '?'
  | .plusP => '+'
  | .starQ => '*'

/-- PTok is one lexed element of a pattern string. -/
inductive PTok where
  | atom (r : RE)
  | lparen
  | rparen
  | post (p : PostOp)
  | bar
deriving DecidableEq

/-- escAtom maps an escaped character to its atom: the word and digit classes
for w and d, and the literal character otherwise (covering escaped
metacharacters). -/
def escAtom (c : Char) : RE :=
  if c = 'w' then .cls .word
  else if c = 'd' then .cls .digit
  else .lit c

/-- lexPat lexes a pattern string: a backslash escapes the next character; the
three-character non-capturing group introducer lexes like a plain opening
parenthesis (capture structure does not affect acceptance); parentheses,
postfix operators, the alternation bar and the dot are operators; every other
character is a literal atom. Constructs outside the modelled fragment
(character classes, mid-string anchors) lex as literals; the patterns produced
by freeze for the claims below never contain them. -/
def lexPat : Str → List PTok
  | [] => []
  | c :: r =>
    if c = '\\' then
      match r with
      | [] => [.atom (.lit '\\')]
      | d :: r2 => .atom (escAtom d) :: lexPat r2
    else if c = '(' then
      if r.head? = some '?' ∧ r.tail.head? = some ':' then .lparen :: lexPat r.tail.tail
      else .lparen :: lexPat r
    else if c = ')' then .rparen :: lexPat r
    else if c = '?' then .post .quest :: lexPat r
    else if c = '+' then .post .plusP :: lexPat r
    else if c = '*' then .post .starQ :: lexPat r
    else if c = '|' then .bar :: lexPat r
    else if c = '.' then .atom (.cls .anyc) :: lexPat r
    else .atom (.lit c) :: lexPat r
termination_by s => s.length
decreasing_by all_goals simp_arith

/-- catListRE sequences a list of atoms. -/
def catListRE (l : List RE) : RE := l.foldr RE.cat .eps

/-- altListRE folds a non-empty list of branches into an alternation; the
empty list (impossible for lexed input) denotes the empty language. -/
def altListRE : List RE → RE
  | [] => .emp
  | [a] => a
  | a :: rest => .alt a (altListRE rest)

/-- PFrame is one parenthesis level during parsing: the completed alternation
branches in order, and the atoms of the current branch in reverse order. -/
structure PFrame where
  alts : List RE
  cur : List RE
deriving DecidableEq

/-- frameRE closes a frame into a single regular expression. -/
def frameRE (f : PFrame) : RE :=
  altListRE (f.alts ++ [catListRE f.cur.reverse])

/-- pushAtom adds an atom to the current branch. -/
def pushAtom (f : PFrame) (a : RE) : PFrame :=
  { f with cur := a :: f.cur }

/-- applyPostFrame applies a postfix operator to the most recent atom; with no
preceding atom the operator character is taken literally (a malformed pattern,
never produced by freeze for the claims). -/
def applyPostFrame (f : PFrame) (p : PostOp) : PFrame :=
  match f.cur with
  | a :: rest => { f with cur := applyPostOp p a :: rest }
  | [] => { f with cur := [.lit (postOpChar p)] }

/-- parseStep processes one lexed element against the frame stack. -/
def parseStep : List PFrame × PFrame → PTok → List PFrame × PFrame
  | (stk, f), .atom a => (stk, pushAtom f a)
  | (stk, f), .lparen => (f :: stk, ⟨[], []⟩)
  | (stk, f), .rparen =>
    match stk with
    | g :: stk2 => (stk2, pushAtom g (frameRE f))
    | [] => ([], pushAtom f (.lit ')'))
  | (stk, f), .post p => (stk, applyPostFrame f p)
  | (stk, f), .bar => (stk, ⟨f.alts ++ [catListRE f.cur.reverse], []⟩)

/-- parseBody parses a lexed pattern body into the RE syntax, closing any
unclosed frames at the end. -/
def parseBody (toks : List PTok) : RE :=
  let (stk, f) := toks.foldl parseStep ([], ⟨[], []⟩)
  stk.foldl (fun acc g => frameRE (pushAtom g acc)) (frameRE f)

/-- compiledMatches models MatchString of a compiled pattern against a
request path: a leading caret anchors the match at the start and a final
dollar at the end. Every pattern built by freeze starts with a caret, so the
unanchored search semantics of MatchString is only needed for prefixes. -/
def compiledMatches (pat : Str) (s : Str) : Bool :=
  let (anch, pat1) :=
    match pat with
    | '^' :: r => (true, r)
    | _ => (false, pat)
  let (endAnch, body) :=
    if pat1.getLast? = some '$' then (true, pat1.dropLast) else (false, pat1)
  let r := parseBody (lexPat body)
  match anch, endAnch with
  | true, true => fullMatch r s
  | true, false => prefMatch r s
  | false, _ => decide (∃ i : Fin (s.length + 1), prefMatch r (s.drop i) = true)

/-- patternMatcherMatch models PatternMatcher.Match (micro.go line 837-839). -/
def patternMatcherMatch (pat : Str) (reqPath : Str) : Bool :=
  compiledMatches pat reqPath

/-!
Controller collections. A ControllerCollection owns routes, a prefix, a frozen
flag, child collections and a hasParent flag. The Mount guard (hasParent)
prevents one collection from appearing under two parents, so the pointer
structure reachable through the API is a tree and is modelled as one.
-/

/-- RTree models the ControllerCollection struct. -/
inductive RTree where
  | mk (routes : List Route) (pfx : Str) (frozen : Bool)
       (children : List RTree) (hasParent : Bool)

/-- routesOf projects the Routes field. -/
def routesOf : RTree → List Route
  | .mk rs _ _ _ _ => rs

/-- pfxOf projects the prefix field. -/
def pfxOf : RTree → Str
  | .mk _ p _ _ _ => p

/-- frozenOf projects the frozen field. -/
def frozenOf : RTree → Bool
  | .mk _ _ f _ _ => f

/-- childrenOf projects the Children field. -/
def childrenOf : RTree → List RTree
  | .mk _ _ _ cs _ => cs

/-- hasParentOf projects the hasParent field. -/
def hasParentOf : RTree → Bool
  | .mk _ _ _ _ h => h

/-- newCollection models NewControllerCollection. -/
def newCollection : RTree := .mk [] [] false [] false

/-- ccAddRoute models ControllerCollection.AddRoute, which appends without
checking the frozen flag. -/
def ccAddRoute (t : RTree) (r : Route) : RTree :=
  .mk (routesOf t ++ [r]) (pfxOf t) (frozenOf t) (childrenOf t) (hasParentOf t)

/-- normPfx models the normalization inside setPrefix: a non-empty prefix is
forced to start with a slash, and a prefix ending in a slash gets a question
mark appended so the slash becomes optional in the compiled patterns. -/
def normPfx (p : Str) : Str :=
  if p = [] then p
  else
    let p1 := if p.head? = some '/' then p else '/' :: p
    if p1.getLast? = some '/' then p1 ++ ['?'] else p1

/-- ccAll models ControllerCollection.All: it panics (none) when the
collection is frozen (mustNotBeFrozen) or the handler is not callable
(MustBeCallable inside SetHandler); otherwise it appends a new all-methods
route with the given path and handler and returns it. The Go code mutates the
appended route through the returned pointer; the model builds the final route
before insertion. -/
def ccAll (t : RTree) (p : Str) (h : Handler) : Option (RTree × Route) :=
  if frozenOf t then none
  else if h.callable then
    let r := { newRoute p with handlerFunc := h }
    some (ccAddRoute t r, r)
  else none

/-- ccVerb is the common shape of the verb helpers Get, Post, Put and Delete:
All followed by SetMethods on the fresh (unfrozen) route. -/
def ccVerb (ms : List Str) (t : RTree) (p : Str) (h : Handler) : Option (RTree × Route) :=
  if frozenOf t then none
  else if h.callable then
    let r := { newRoute p with handlerFunc := h, methods := ms }
    some (ccAddRoute t r, r)
  else none

/-- ccGet models ControllerCollection.Get (micro.go lines 565-569). -/
def ccGet : RTree → Str → Handler → Option (RTree × Route) :=
  ccVerb [S "GET", S "HEAD"]

/-- ccPost models ControllerCollection.Post. -/
def ccPost : RTree → Str → Handler → Option (RTree × Route) :=
  ccVerb [S "POST"]

/-- ccPut models ControllerCollection.Put. -/
def ccPut : RTree → Str → Handler → Option (RTree × Route) :=
  ccVerb [S "PUT"]

/-- ccDelete models ControllerCollection.Delete. -/
def ccDelete : RTree → Str → Handler → Option (RTree × Route) :=
  ccVerb [S "DELETE"]

/-- ccUse models ControllerCollection.Use: All followed by setting the
passthrough flag on the fresh route. -/
def ccUse (t : RTree) (p : Str) (h : Handler) : Option (RTree × Route) :=
  if frozenOf t then none
  else if h.callable then
    let r := { newRoute p with handlerFunc := h, passthrough := true }
    some (ccAddRoute t r, r)
  else none

/-- ccMount models ControllerCollection.Mount: a child that already has a
parent is ignored; otherwise the child is appended to Children and setPrefix
runs on it, which panics (none) when the child is frozen. -/
def ccMount (t : RTree) (path : Str) (child : RTree) : Option RTree :=
  if hasParentOf child then some t
  else if frozenOf child then none
  else
    some (.mk (routesOf t) (pfxOf t) (frozenOf t)
      (childrenOf t ++
        [.mk (routesOf child) (normPfx path) (frozenOf child) (childrenOf child) true])
      (hasParentOf t))

/-- freezePrefixed is the per-route step of Flush: prepend the prefix to the
path, then freeze. -/
def freezePrefixed (pfx : Str) (r : Route) : Route :=
  freezeRoute { r with path := pfx ++ r.path }

mutual
/-- flushWith models setPrefix(newPfx) immediately followed by Flush, the
combination Flush applies to each child (micro.go line 530). The setPrefix
call panics (none) when the collection is frozen; Flush then prefixes and
freezes the own routes, recursively flushes each child with the concatenated
prefix, appends every flushed child routes slice and empties the children. -/
def flushWith (newPfx : Str) : RTree → Option RTree
  | .mk rs _ frozen cs hp =>
    if frozen then none
    else
      let pfx1 := normPfx newPfx
      let rs1 := rs.map (freezePrefixed pfx1)
      match flushKids pfx1 cs with
      | none => none
      | some (collected, cs1) => some (.mk (rs1 ++ collected) pfx1 true cs1 hp)

/-- flushKids models the child loop of Flush: each child is flushed with the
parent prefix concatenated to its own, its flushed routes are collected and
its routes slice is emptied. -/
def flushKids (pfx : Str) : List RTree → Option (List Route × List RTree)
  | [] => some ([], [])
  | c :: cs =>
    match flushWith (pfx ++ pfxOf c) c with
    | none => none
    | some c1 =>
      match flushKids pfx cs with
      | none => none
      | some (rest, cs1) =>
        some (routesOf c1 ++ rest,
          .mk [] (pfxOf c1) (frozenOf c1) (childrenOf c1) (hasParentOf c1) :: cs1)
end

/-- flushT models ControllerCollection.Flush on a collection (micro.go lines
516-538): idempotent on a frozen collection; otherwise own routes are
prefixed with the own prefix and frozen, children are flushed with
concatenated prefixes, their routes are appended and emptied, and the
collection is marked frozen. -/
def flushT : RTree → Option RTree
  | .mk rs pfx frozen cs hp =>
    if frozen then some (.mk rs pfx frozen cs hp)
    else
      let rs1 := rs.map (freezePrefixed pfx)
      match flushKids pfx cs with
      | none => none
      | some (collected, cs1) => some (.mk (rs1 ++ collected) pfx true cs1 hp)

/-!
Application state: boot flag and error handler registration.
-/

/-- MicroSt models the application state relevant to Error: the boot flag and
the error handler map. -/
structure MicroSt where
  booted : Bool
  errorHandlers : List (Nat × Nat)
deriving DecidableEq

/-- microError models Micro.Error (micro.go lines 154-162): after boot the
call silently returns with the map unchanged; before boot a code below 400
panics (none); otherwise the handler is stored under the code. -/
def microError (m : MicroSt) (code : Nat) (h : Nat) : Option MicroSt :=
  if m.booted then some m
  else if code < 400 then none
  else some { m with errorHandlers := insertEH m.errorHandlers code h }

/-!
Dispatch chain. ServeHTTP builds a continuation (the next closure) over the
list of matched routes, the response writer wrapper (status code and written
byte count) and the error handler map. One invocation of the continuation is
modelled as a state transition; handler invocations are recorded in an event
log (handlers themselves are external code resolved by the injector and their
effects are not modelled). The default error body written by http.Error is
non-empty; its exact length is irrelevant to the claims and modelled as one
byte.
-/

/-- DEvent records one handler invocation performed by the dispatch code. -/
inductive DEvent where
  | handler (id : Nat)
  | errHandler (code : Nat) (id : Nat)
  | statusText (code : Nat)
deriving DecidableEq

/-- DState models the per-request dispatch state: remaining matched routes
(by handler identifier, in the field rem), response status code (zero while unset), bytes
written, the error handler map, and the invocation log. -/
structure DState where
  rem : List Nat
  code : Nat
  written : Nat
  errorHandlers : List (Nat × Nat)
  log : List DEvent
deriving DecidableEq

/-- hasErrorCodeStep models Micro.hasErrorCode (micro.go lines 165-175): when
the status code exceeds 399 it handles the error and reports true; a
registered handler for the code runs only when nothing has been written yet,
otherwise http.Error writes the default status text body. -/
def hasErrorCodeStep (s : DState) : Bool × DState :=
  if s.code > 399 then
    (true,
      match lookupEH s.errorHandlers s.code with
      | some h =>
        if s.written = 0 then { s with log := s.log ++ [.errHandler s.code h] }
        else { s with log := s.log ++ [.statusText s.code], written := s.written + 1 }
      | none => { s with log := s.log ++ [.statusText s.code], written := s.written + 1 })
  else (false, s)

/-- advance models one invocation of the next closure (micro.go lines
127-145): the error short-circuit runs first on every invocation; with no
matches left the registered 404 handler runs; otherwise the head matched
route is popped and its handler invoked. -/
def advance (s : DState) : DState :=
  match hasErrorCodeStep s with
  | (true, s1) => s1
  | (false, s1) =>
    match s1.rem with
    | [] =>
      match lookupEH s1.errorHandlers 404 with
      | some h => { s1 with log := s1.log ++ [.errHandler 404 h] }
      | none => s1
    | m :: rest => { s1 with rem := rest, log := s1.log ++ [.handler m] }

/-- bindLoop models the parameter-binding loop of the next closure (micro.go
lines 138-140): submatch i is bound to params index i; an index beyond the
params list is a runtime panic (none). -/
def bindLoop : List Str → List Str → Option (List (Str × Str))
  | _, [] => some []
  | [], _ :: _ => none
  | p :: ps, v :: vs => (bindLoop ps vs).map (fun l => (p, v) :: l)

/-- capGroupCount counts the opening parentheses of a pattern string. For the
pattern strings covered by the capture-group claims (no escaped parentheses,
no non-capturing groups, no character classes — the hypotheses of the
theorems below ensure the relevant fragments contain no parenthesis at all,
and the default parameter pattern contains exactly one), this equals the
number of capture groups RE2 assigns to the compiled pattern. -/
def capGroupCount (pat : Str) : Nat := pat.count '('

/-- digitsVal reads a decimal digit string back into a number; it is used to
prove that the decimal representation is injective. -/
def digitsVal (s : Str) : Nat := s.foldl (fun a c => a * 10 + (c.toNat - 48)) 0

/-- matchToks is the match list of a path: the scanned tokens that correspond
to regexp matches. -/
def matchToks (p : Str) : List Tok := (tokenize p).filter isMatchTok

/-- specParamsLoop names the parameters of a match list by constructor: a
named parameter match contributes its name, any other match the decimal
representation of its index among all matches. This is the specification-side
counterpart of paramsLoop, which instead tests whether the matched text
starts with a colon. -/
def specParamsLoop (i : Nat) : List Tok → List Str
  | [] => []
  | .param nm _ :: ts => nm :: specParamsLoop (i + 1) ts
  | _ :: ts => natDigits i :: specParamsLoop (i + 1) ts

/-- specParams is the specification-side parameter list of a path. -/
def specParams (p : Str) : List Str := specParamsLoop 0 (matchToks p)

/-- isLitChar restricts a static path to characters that the scanner leaves
unmatched and that are not regexp metacharacters, so the character stands for
itself in the compiled pattern: ASCII letters and digits, slash, underscore
and hyphen. -/
def isLitChar (c : Char) : Bool :=
  c.isAlphanum || c = '/' || c = '_' || c = '-'

/-- stripSlash removes one trailing slash if present. -/
def stripSlash (p : Str) : Str :=
  if p.getLast? = some '/' then p.dropLast else p

/-- normedPfx holds for the prefixes produced by setPrefix: empty, or
starting with a slash and not ending with one. Every prefix reachable through
the public API (Mount) has this shape. -/
def normedPfx (p : Str) : Bool :=
  decide (p = [] ∨ (p.head? = some '/' ∧ p.getLast? ≠ some '/'))

mutual
/-- unfrozenAllB holds when no collection in the tree is frozen. -/
def unfrozenAllB : RTree → Bool
  | .mk _ _ f cs _ => !f && unfrozenAllL cs

/-- unfrozenAllL is unfrozenAllB over a list of children. -/
def unfrozenAllL : List RTree → Bool
  | [] => true
  | c :: cs => unfrozenAllB c && unfrozenAllL cs
end

mutual
/-- normAllB holds when every prefix in the tree has the setPrefix shape. -/
def normAllB : RTree → Bool
  | .mk _ p _ cs _ => normedPfx p && normAllL cs

/-- normAllL is normAllB over a list of children. -/
def normAllL : List RTree → Bool
  | [] => true
  | c :: cs => normAllB c && normAllL cs
end

mutual
/-- specFlat is the flattened route sequence the Flush invariant describes:
the own routes with the effective prefix eff prepended and frozen, followed
by each child subtree in mount order, the effective prefix of a child being
the concatenation of the ancestor prefixes with its own. -/
def specFlat (eff : Str) : RTree → List Route
  | .mk rs _ _ cs _ => rs.map (freezePrefixed eff) ++ specFlatKids eff cs

/-- specFlatKids flattens a list of children in mount order. -/
def specFlatKids (eff : Str) : List RTree → List Route
  | [] => []
  | c :: cs => specFlat (eff ++ pfxOf c) c ++ specFlatKids eff cs
end

mutual
/-- flatKidsB holds when every strict descendant of the node has an empty
route list and is frozen. -/
def flatKidsB : RTree → Bool
  | .mk _ _ _ cs _ => flatKidsL cs

/-- flatKidsL is the descendant condition over a list of children. -/
def flatKidsL : List RTree → Bool
  | [] => true
  | c :: cs => (routesOf c).isEmpty && frozenOf c && flatKidsB c && flatKidsL cs
end

/-!
Theorems: regular-expression engine correctness.
-/

/-- nullable_of_mem_nil is one direction of the nullability correspondence,
proved by induction on the membership derivation. -/
theorem nullable_of_mem_nil {r : RE} {s : Str} (h : LMem r s) (hs : s = []) :
    nullable r = true := by
  induction h with
  | eps => simp [nullable]
  | lit c => simp at hs
  | cls h => simp at hs
  | catm ha hb iha ihb =>
    rcases List.append_eq_nil.mp hs with ⟨h1, h2⟩
    simp [nullable, iha h1, ihb h2]
  | altl h ih => simp [nullable, ih hs]
  | altr h ih => simp [nullable, ih hs]
  | star0 => simp [nullable]
  | stars hu hv ihu ihv => simp [nullable]

/-- mem_nil_of_nullable is the other direction of the correspondence. -/
theorem mem_nil_of_nullable : (r : RE) → nullable r = true → LMem r []
  | .eps, _ => .eps
  | .cat a b, h => by
    simp only [nullable, Bool.and_eq_true] at h
    have := LMem.catm (mem_nil_of_nullable a h.1) (mem_nil_of_nullable b h.2)
    simpa using this
  | .alt a b, h => by
    simp only [nullable, Bool.or_eq_true] at h
    cases h with
    | inl h => exact .altl (mem_nil_of_nullable a h)
    | inr h => exact .altr (mem_nil_of_nullable b h)
  | .star _, _ => .star0

/-- nullable_iff connects the nullability test with the semantics. -/
theorem nullable_iff (r : RE) : nullable r = true ↔ LMem r [] :=
  ⟨mem_nil_of_nullable r, fun h => nullable_of_mem_nil h rfl⟩

/-- star_cons_split_aux inverts a star membership whose word is non-empty,
splitting off a non-empty first iteration. -/
theorem star_cons_split_aux {r : RE} {w : Str} (h : LMem r w) :
    ∀ {a : RE} {c : Char} {s : Str}, r = .star a → w = c :: s →
      ∃ u v, s = u ++ v ∧ LMem a (c :: u) ∧ LMem (.star a) v := by
  induction h with
  | eps => intro a c s hr hw; cases hr
  | lit _ => intro a c s hr hw; cases hr
  | cls _ => intro a c s hr hw; cases hr
  | catm _ _ _ _ => intro a c s hr hw; cases hr
  | altl _ _ => intro a c s hr hw; cases hr
  | altr _ _ => intro a c s hr hw; cases hr
  | star0 => intro a c s hr hw; cases hw
  | stars hu hv ihu ihv =>
    intro a c s hr hw
    injection hr with ha
    subst ha
    rename_i u v
    cases u with
    | nil =>
      exact ihv rfl hw
    | cons d u2 =>
      simp only [List.cons_append] at hw
      obtain ⟨hd, ht⟩ := List.cons.inj hw
      subst hd
      exact ⟨u2, v, ht.symm, hu, hv⟩

/-- star_cons_split is the usable form of the star inversion. -/
theorem star_cons_split {a : RE} {c : Char} {s : Str} (h : LMem (.star a) (c :: s)) :
    ∃ u v, s = u ++ v ∧ LMem a (c :: u) ∧ LMem (.star a) v :=
  star_cons_split_aux h rfl rfl

/-- cat_split inverts a concatenation membership. -/
theorem cat_split {a b : RE} {w : Str} (h : LMem (.cat a b) w) :
    ∃ u v, w = u ++ v ∧ LMem a u ∧ LMem b v := by
  cases h with
  | catm hu hv => exact ⟨_, _, rfl, hu, hv⟩

/-- alt_split inverts an alternation membership. -/
theorem alt_split {a b : RE} {w : Str} (h : LMem (.alt a b) w) :
    LMem a w ∨ LMem b w := by
  cases h with
  | altl h => exact Or.inl h
  | altr h => exact Or.inr h

/-- mem_deriv is the correctness of the Brzozowski derivative. -/
theorem mem_deriv {c : Char} : ∀ {r : RE} {s : Str}, LMem (derivC r c) s ↔ LMem r (c :: s) := by
  intro r
  induction r with
  | emp => intro s; constructor <;> (intro h; cases h)
  | eps => intro s; constructor <;> (intro h; cases h)
  | lit d =>
    intro s
    constructor
    · intro h
      simp only [derivC] at h
      by_cases hd : d = c
      · simp only [hd, if_pos rfl] at h
        cases h
        simpa [hd] using LMem.lit c
      · simp only [if_neg hd] at h; cases h
    · intro h
      cases h
      simp only [derivC, if_pos rfl]
      exact .eps
  | cls k =>
    intro s
    constructor
    · intro h
      simp only [derivC] at h
      by_cases hk : clsTest k c = true
      · simp only [if_pos hk] at h
        cases h
        exact LMem.cls hk
      · simp only [if_neg hk] at h; cases h
    · intro h
      cases h with
      | cls hk =>
        simp only [derivC, if_pos hk]
        exact .eps
  | cat a b iha ihb =>
    intro s
    constructor
    · intro h
      simp only [derivC] at h
      by_cases hn : nullable a
      · simp only [if_pos hn] at h
        cases h with
        | altl h =>
          cases h with
          | catm hu hv =>
            have := LMem.catm (iha.mp hu) hv
            simpa using this
        | altr h =>
          have := LMem.catm (mem_nil_of_nullable a hn) (ihb.mp h)
          simpa using this
      · simp only [if_neg hn] at h
        cases h with
        | catm hu hv =>
          have := LMem.catm (iha.mp hu) hv
          simpa using this
    · intro h
      obtain ⟨u, v, hw, hu, hv⟩ := cat_split h
      simp only [derivC]
      cases u with
      | nil =>
        have hn : nullable a = true := nullable_of_mem_nil hu rfl
        simp only [List.nil_append] at hw
        subst hw
        simp only [if_pos hn]
        exact .altr (ihb.mpr hv)
      | cons d u2 =>
        simp only [List.cons_append] at hw
        obtain ⟨hd, ht⟩ := List.cons.inj hw
        subst hd
        have hda : LMem (derivC a c) u2 := iha.mpr hu
        have hcat : LMem (.cat (derivC a c) b) s := ht ▸ LMem.catm hda hv
        by_cases hn : nullable a
        · simp only [if_pos hn]; exact .altl hcat
        · simp only [if_neg hn]; exact hcat
  | alt a b iha ihb =>
    intro s
    constructor
    · intro h
      cases h with
      | altl h => exact .altl (iha.mp h)
      | altr h => exact .altr (ihb.mp h)
    · intro h
      cases h with
      | altl h => exact .altl (iha.mpr h)
      | altr h => exact .altr (ihb.mpr h)
  | star a iha =>
    intro s
    constructor
    · intro h
      simp only [derivC] at h
      cases h with
      | catm hu hv =>
        have := LMem.stars (iha.mp hu) hv
        simpa using this
    · intro h
      obtain ⟨u, v, hs, hcu, hv⟩ := star_cons_split h
      subst hs
      exact .catm (iha.mpr hcu) hv

/-- fullMatch_iff is the correctness of the derivative matcher for whole
strings. -/
theorem fullMatch_iff (r : RE) (s : Str) : fullMatch r s = true ↔ LMem r s := by
  induction s generalizing r with
  | nil => exact nullable_iff r
  | cons c cs ih =>
    simp only [fullMatch, List.foldl_cons]
    exact (ih (derivC r c)).trans mem_deriv

/-- prefMatch_iff is the correctness of the prefix matcher: some prefix of the
string is in the language. -/
theorem prefMatch_iff (r : RE) (s : Str) :
    prefMatch r s = true ↔ ∃ u v, s = u ++ v ∧ LMem r u := by
  induction s generalizing r with
  | nil =>
    simp only [prefMatch]
    constructor
    · intro h
      exact ⟨[], [], rfl, (nullable_iff r).mp h⟩
    · rintro ⟨u, v, huv, hu⟩
      rcases List.append_eq_nil.mp huv.symm with ⟨h1, h2⟩
      subst h1
      exact (nullable_iff r).mpr hu
  | cons c cs ih =>
    simp only [prefMatch, Bool.or_eq_true]
    constructor
    · rintro (h | h)
      · exact ⟨[], c :: cs, rfl, (nullable_iff r).mp h⟩
      · obtain ⟨u, v, huv, hu⟩ := (ih (derivC r c)).mp h
        exact ⟨c :: u, v, by simp [huv], mem_deriv.mp hu⟩
    · rintro ⟨u, v, huv, hu⟩
      cases u with
      | nil =>
        exact Or.inl ((nullable_iff r).mpr hu)
      | cons d u2 =>
        simp only [List.cons_append] at huv
        obtain ⟨hd, ht⟩ := List.cons.inj huv
        subst hd
        exact Or.inr ((ih (derivC r c)).mpr ⟨u2, v, ht, mem_deriv.mpr hu⟩)

/-!
Theorems: map helper lemmas.
-/

/-- lookupEH_insertEH: inserting then looking up the same code finds the
inserted handler. -/
theorem lookupEH_insertEH (m : List (Nat × Nat)) (k v : Nat) :
    lookupEH (insertEH m k v) k = some v := by
  induction m with
  | nil => simp [insertEH, lookupEH]
  | cons kv rest ih =>
    obtain ⟨k0, v0⟩ := kv
    by_cases hk : k0 = k <;> simp [insertEH, lookupEH, hk, ih]

/-- lookupA_insertA: inserting then looking up the same attribute key finds
the inserted value. -/
theorem lookupA_insertA (m : List (Str × Nat)) (k : Str) (v : Nat) :
    lookupA (insertA m k v) k = some v := by
  induction m with
  | nil => simp [insertA, lookupA]
  | cons kv rest ih =>
    obtain ⟨k0, v0⟩ := kv
    by_cases hk : k0 = k <;> simp [insertA, lookupA, hk, ih]

/-- freezeRoute_mMeths: freezing an unfrozen route installs a method matcher
holding the methods of the route. -/
theorem freezeRoute_mMeths (r : Route) (h : r.frozen = false) :
    (freezeRoute r).mMeths = some r.methods := by
  simp [freezeRoute, h]

unseal tokenize natDigits lexPat sanitizeName

/-!
Theorems: the claims.
-/

/-- C1 counterexample: the claim states that every mutating operation on a
frozen route is a no-op, but SetAttribute has no frozen guard: on a frozen
route it changes the observable attribute map. -/
theorem c1_counterexample :
    (freezeRoute (newRoute (S "/x"))).frozen = true ∧
    lookupA (freezeRoute (newRoute (S "/x"))).attributes (S "k") = none ∧
    lookupA (setAttribute (S "k") 5 (freezeRoute (newRoute (S "/x")))).attributes (S "k") =
      some 5 := by
  decide

/-- C1 amended: on a frozen route SetName, SetHandler, SetMethods and Assert
are no-ops, but SetAttribute stores the attribute anyway; on a frozen
collection AddRoute appends the route anyway and Mount attaches a fresh child
anyway, while the route constructors All, Get, Post, Put, Delete and Use
panic via mustNotBeFrozen before mutating anything. -/
theorem c1_frozen_mutation_behavior (r r2 : Route) (t c : RTree)
    (nm pat p k : Str) (ms : List Str) (h : Handler) (v : Nat)
    (hr : r.frozen = true) (ht : frozenOf t = true)
    (hcp : hasParentOf c = false) (hcf : frozenOf c = false) :
    setName nm r = r ∧
    setMethods ms r = r ∧
    setHandler h r = some r ∧
    assertParam nm pat r = r ∧
    lookupA (setAttribute k v r).attributes k = some v ∧
    routesOf (ccAddRoute t r2) = routesOf t ++ [r2] ∧
    ccAll t p h = none ∧
    ccGet t p h = none ∧
    ccPost t p h = none ∧
    ccPut t p h = none ∧
    ccDelete t p h = none ∧
    ccUse t p h = none ∧
    ∃ t2, ccMount t p c = some t2 ∧
      childrenOf t2 = childrenOf t ++
        [.mk (routesOf c) (normPfx p) false (childrenOf c) true] := by
  refine ⟨?_, ?_, ?_, ?_, ?_, rfl, ?_, ?_, ?_, ?_, ?_, ?_, ?_⟩
  · simp [setName, hr]
  · simp [setMethods, hr]
  · simp [setHandler, hr]
  · simp [assertParam, hr]
  · exact lookupA_insertA r.attributes k v
  · simp [ccAll, ht]
  · simp [ccGet, ccVerb, ht]
  · simp [ccPost, ccVerb, ht]
  · simp [ccPut, ccVerb, ht]
  · simp [ccDelete, ccVerb, ht]
  · simp [ccUse, ht]
  · refine ⟨.mk (routesOf t) (pfxOf t) (frozenOf t)
      (childrenOf t ++ [.mk (routesOf c) (normPfx p) false (childrenOf c) true])
      (hasParentOf t), ?_, ?_⟩
    · simp [ccMount, hcp, hcf]
    · simp [childrenOf]

/-- Witness for C1 amended, at a concrete frozen route and frozen collection
with a fresh child. -/
theorem c1_frozen_mutation_behavior_witness :
    setName (S "n") (freezeRoute (newRoute (S "/x"))) = freezeRoute (newRoute (S "/x")) ∧
    setMethods [S "GET"] (freezeRoute (newRoute (S "/x"))) = freezeRoute (newRoute (S "/x")) ∧
    setHandler ⟨9, true⟩ (freezeRoute (newRoute (S "/x"))) =
      some (freezeRoute (newRoute (S "/x"))) ∧
    assertParam (S "n") (S "x") (freezeRoute (newRoute (S "/x"))) =
      freezeRoute (newRoute (S "/x")) ∧
    lookupA (setAttribute (S "k") 5 (freezeRoute (newRoute (S "/x")))).attributes (S "k") =
      some 5 ∧
    routesOf (ccAddRoute (.mk [] [] true [] false) (newRoute (S "/y"))) =
      [] ++ [newRoute (S "/y")] ∧
    ccAll (.mk [] [] true [] false) (S "/z") ⟨9, true⟩ = none ∧
    ccGet (.mk [] [] true [] false) (S "/z") ⟨9, true⟩ = none ∧
    ccPost (.mk [] [] true [] false) (S "/z") ⟨9, true⟩ = none ∧
    ccPut (.mk [] [] true [] false) (S "/z") ⟨9, true⟩ = none ∧
    ccDelete (.mk [] [] true [] false) (S "/z") ⟨9, true⟩ = none ∧
    ccUse (.mk [] [] true [] false) (S "/z") ⟨9, true⟩ = none ∧
    ∃ t2, ccMount (.mk [] [] true [] false) (S "/z") newCollection = some t2 ∧
      childrenOf t2 = childrenOf (.mk [] [] true [] false) ++
        [.mk (routesOf newCollection) (normPfx (S "/z")) false (childrenOf newCollection) true] :=
  c1_frozen_mutation_behavior (freezeRoute (newRoute (S "/x"))) (newRoute (S "/y"))
    (.mk [] [] true [] false) newCollection (S "n") (S "x") (S "/z") (S "k")
    [S "GET"] ⟨9, true⟩ 5 (by decide) rfl rfl rfl

/-- C2: the claim says the method matcher accepts when the method set contains
the wildcard verb or the request method case-insensitively, or is empty.
MethodMatcher.Match (micro.go lines 809-821) has no wildcard case, although
the doc comment of SetMethods documents the wildcard, so a route restricted to
the wildcard verb rejects a GET request; the empty-set and case-insensitive
clauses do hold, as the second and third conjuncts show. -/
theorem c2_wildcard_method_rejected :
    methodMatcherMatch [S "*"] (S "GET") = false ∧
    methodMatcherMatch [] (S "GET") = true ∧
    methodMatcherMatch [S "get"] (S "GeT") = true := by decide

/-- C7: Micro.Error called after boot silently returns with the handler map
unchanged; before boot a code below 400 panics; before boot a code of at
least 400 stores the handler under that code (and does not boot the app). -/
theorem c7_error_registration (m : MicroSt) (code h : Nat) :
    (m.booted = true → microError m code h = some m) ∧
    (m.booted = false → code < 400 → microError m code h = none) ∧
    (m.booted = false → 400 ≤ code →
      ∃ m2, microError m code h = some m2 ∧ m2.booted = false ∧
        lookupEH m2.errorHandlers code = some h) := by
  refine ⟨?_, ?_, ?_⟩
  · intro hb
    simp [microError, hb]
  · intro hb hc
    simp [microError, hb, hc]
  · intro hb hc
    refine ⟨{ m with errorHandlers := insertEH m.errorHandlers code h }, ?_, hb, ?_⟩
    · simp [microError, hb]
      omega
    · exact lookupEH_insertEH m.errorHandlers code h

/-- Witness for C7 at concrete states: a booted application ignores the call,
an unbooted one rejects code 399 and registers a handler for code 500. -/
theorem c7_error_registration_witness :
    microError ⟨true, []⟩ 500 3 = some ⟨true, []⟩ ∧
    microError ⟨false, []⟩ 399 3 = none ∧
    ∃ m2, microError ⟨false, []⟩ 500 3 = some m2 ∧ m2.booted = false ∧
      lookupEH m2.errorHandlers 500 = some 3 :=
  ⟨(c7_error_registration ⟨true, []⟩ 500 3).1 rfl,
   (c7_error_registration ⟨false, []⟩ 399 3).2.1 rfl (by decide),
   (c7_error_registration ⟨false, []⟩ 500 3).2.2 rfl (by decide)⟩

/-- C3: on every invocation of the dispatch continuation with a response
status above 399, the remaining-match list is untouched and no route handler
runs; instead exactly one error event is appended: the registered handler for
that status when one exists and nothing has been written, otherwise the
default status-text body. -/
theorem c3_error_short_circuit (s : DState) (hc : s.code > 399) :
    (advance s).rem = s.rem ∧
    (∀ h, lookupEH s.errorHandlers s.code = some h → s.written = 0 →
      (advance s).log = s.log ++ [.errHandler s.code h]) ∧
    ((lookupEH s.errorHandlers s.code = none ∨ s.written ≠ 0) →
      (advance s).log = s.log ++ [.statusText s.code]) := by
  cases hl : lookupEH s.errorHandlers s.code with
  | none =>
    have ha : advance s =
        { s with log := s.log ++ [.statusText s.code], written := s.written + 1 } := by
      simp [advance, hasErrorCodeStep, if_pos hc, hl]
    refine ⟨by simp [ha], ?_, ?_⟩
    · intro h hh; simp at hh
    · intro _; simp [ha]
  | some h0 =>
    by_cases hw : s.written = 0
    · have ha : advance s = { s with log := s.log ++ [.errHandler s.code h0] } := by
        simp [advance, hasErrorCodeStep, if_pos hc, hl, hw]
      refine ⟨by simp [ha], ?_, ?_⟩
      · intro h hh hw2
        obtain rfl : h0 = h := by injection hh
        simp [ha]
      · rintro (hn | hw2)
        · simp at hn
        · exact absurd hw hw2
    · have ha : advance s =
          { s with log := s.log ++ [.statusText s.code], written := s.written + 1 } := by
        simp [advance, hasErrorCodeStep, if_pos hc, hl, hw]
      refine ⟨by simp [ha], ?_, ?_⟩
      · intro h hh hw2; exact absurd hw2 hw
      · intro _; simp [ha]

/-- Witness for C3: a handler set status 404 with no body; the registered 404
handler (identifier 99) runs, the two remaining matched routes are not
consumed and no route-handler event is emitted. -/
theorem c3_error_short_circuit_witness :
    (advance ⟨[7, 8], 404, 0, [(404, 99)], []⟩).rem = [7, 8] ∧
    (advance ⟨[7, 8], 404, 0, [(404, 99)], []⟩).log = [DEvent.errHandler 404 99] :=
  ⟨(c3_error_short_circuit ⟨[7, 8], 404, 0, [(404, 99)], []⟩ (by decide)).1,
   (c3_error_short_circuit ⟨[7, 8], 404, 0, [(404, 99)], []⟩ (by decide)).2.1 99 (by decide) rfl⟩

/-- C10: on an unfrozen collection with a callable handler, Get creates a
route whose method set is exactly GET and HEAD, whose frozen method matcher
stores that set, and that set accepts precisely the request methods whose
upper-casing is GET or HEAD. -/
theorem c10_get_route_methods (t : RTree) (p : Str) (h : Handler) (m : Str)
    (ht : frozenOf t = false) (hc : h.callable = true) :
    ∃ t2 r, ccGet t p h = some (t2, r) ∧ r.methods = [S "GET", S "HEAD"] ∧
      (freezeRoute r).mMeths = some [S "GET", S "HEAD"] ∧
      (methodMatcherMatch [S "GET", S "HEAD"] m = true ↔
        toUpperStr m = S "GET" ∨ toUpperStr m = S "HEAD") := by
  refine ⟨ccAddRoute t { newRoute p with handlerFunc := h, methods := [S "GET", S "HEAD"] },
         { newRoute p with handlerFunc := h, methods := [S "GET", S "HEAD"] }, ?_, rfl, ?_, ?_⟩
  · simp [ccGet, ccVerb, ht, hc]
  · exact freezeRoute_mMeths _ rfl
  · have hg : toUpperStr (S "GET") = S "GET" := by decide
    have hh : toUpperStr (S "HEAD") = S "HEAD" := by decide
    have key : methodMatcherMatch [S "GET", S "HEAD"] m =
        (decide (toUpperStr (S "GET") = toUpperStr m) ||
          (decide (toUpperStr (S "HEAD") = toUpperStr m) || false)) := rfl
    rw [key, hg, hh]
    simp only [Bool.or_false, Bool.or_eq_true, decide_eq_true_eq]
    constructor
    · rintro (h2 | h2)
      · exact Or.inl h2.symm
      · exact Or.inr h2.symm
    · rintro (h2 | h2)
      · exact Or.inl h2.symm
      · exact Or.inr h2.symm

/-- Witness for C10: Get on a fresh collection produces the GET-and-HEAD
route, and a lower-case head request method is accepted. -/
theorem c10_get_route_methods_witness :
    (∃ t2 r, ccGet newCollection (S "/x") ⟨1, true⟩ = some (t2, r) ∧
      r.methods = [S "GET", S "HEAD"] ∧
      (freezeRoute r).mMeths = some [S "GET", S "HEAD"] ∧
      (methodMatcherMatch [S "GET", S "HEAD"] (S "head") = true ↔
        toUpperStr (S "head") = S "GET" ∨ toUpperStr (S "head") = S "HEAD")) ∧
    methodMatcherMatch [S "GET", S "HEAD"] (S "head") = true :=
  ⟨c10_get_route_methods newCollection (S "/x") ⟨1, true⟩ (S "head") rfl rfl, by decide⟩

/-!
Theorems: decimal representation and parameter extraction (C5).
-/

/-- digitChar_toNat computes the code point of a digit character. -/
theorem digitChar_toNat (n : Nat) (h : n < 10) : (digitChar n).toNat = 48 + n := by
  interval_cases n <;> decide

/-- digitsVal_concat peels the last digit off a decimal reading. -/
theorem digitsVal_concat (xs : Str) (c : Char) :
    digitsVal (xs ++ [c]) = digitsVal xs * 10 + (c.toNat - 48) := by
  simp [digitsVal, List.foldl_append]

/-- digitsVal_natDigits: reading back the decimal representation recovers the
number. -/
theorem digitsVal_natDigits (n : Nat) : digitsVal (natDigits n) = n := by
  induction n using Nat.strong_induction_on with
  | _ n ih =>
    by_cases h : n < 10
    · rw [natDigits, if_pos h]
      simp [digitsVal, digitChar_toNat n h]
    · rw [natDigits, if_neg h]
      rw [digitsVal_concat, ih (n / 10) (Nat.div_lt_self (by omega) (by omega)),
        digitChar_toNat (n % 10) (Nat.mod_lt n (by omega))]
      omega

/-- natDigits_inj: the decimal representation is injective. -/
theorem natDigits_inj {a b : Nat} (h : natDigits a = natDigits b) : a = b := by
  have := digitsVal_natDigits a
  rw [h, digitsVal_natDigits] at this
  omega


/-!
Theorems: scanner step equations.
-/

/-- tokenize_lit: a character that starts no alternative is an unmatched
literal. -/
theorem tokenize_lit (c : Char) (rest : Str) (h1 : c ≠ ':') (h2 : c ≠ '(') :
    tokenize (c :: rest) = .lit c :: tokenize rest := by
  rw [tokenize, if_neg h1, if_neg h2]

/-- tokenize_colon_nil: a colon not followed by a word character is an
unmatched literal. -/
theorem tokenize_colon_nil (rest : Str) (h : rest.takeWhile isWordChar = []) :
    tokenize (':' :: rest) = .lit ':' :: tokenize rest := by
  rw [tokenize, if_pos rfl, if_pos h]

/-- tokenize_param_opt: a colon followed by a word run and a question mark
scans as an optional named parameter. -/
theorem tokenize_param_opt (rest : Str) (h : rest.takeWhile isWordChar ≠ [])
    (hq : (rest.drop (rest.takeWhile isWordChar).length).head? = some '?') :
    tokenize (':' :: rest) = .param (rest.takeWhile isWordChar) true ::
      tokenize (rest.drop (rest.takeWhile isWordChar).length).tail := by
  rw [tokenize, if_pos rfl, if_neg h, if_pos hq]

/-- tokenize_param_req: a colon followed by a word run and no question mark
scans as a required named parameter. -/
theorem tokenize_param_req (rest : Str) (h : rest.takeWhile isWordChar ≠ [])
    (hq : ¬(rest.drop (rest.takeWhile isWordChar).length).head? = some '?') :
    tokenize (':' :: rest) = .param (rest.takeWhile isWordChar) false ::
      tokenize (rest.drop (rest.takeWhile isWordChar).length) := by
  rw [tokenize, if_pos rfl, if_neg h, if_neg hq]

/-- tokenize_open_nil: an opening parenthesis not followed by a matchable
character is an unmatched literal. -/
theorem tokenize_open_nil (rest : Str) (h : rest.takeWhile (fun d => d ≠ '\n') = []) :
    tokenize ('(' :: rest) = .lit '(' :: tokenize rest := by
  rw [tokenize, if_neg (by decide), if_pos (show ('(' : Char) = '(' from rfl), if_pos h]

/-- tokenize_grp_eq: an opening parenthesis followed by at least one non
newline character scans as a raw-group match extending to the newline or the
end. -/
theorem tokenize_grp_eq (rest : Str) (h : rest.takeWhile (fun d => d ≠ '\n') ≠ []) :
    tokenize ('(' :: rest) = .grp ('(' :: rest.takeWhile (fun d => d ≠ '\n')) ::
      tokenize (rest.drop (rest.takeWhile (fun d => d ≠ '\n')).length) := by
  rw [tokenize, if_neg (by decide), if_pos (show ('(' : Char) = '(' from rfl), if_neg h]

/-- tokenize_grp_head: every raw-group token produced by the scanner starts
with an opening parenthesis. -/
theorem tokenize_grp_head (p : Str) :
    ∀ s, Tok.grp s ∈ tokenize p → s.head? = some '(' := by
  induction p using tokenize.induct with
  | case1 => intro s h; simp [tokenize] at h
  | case2 rest hnm ih =>
    intro s h
    rw [tokenize_colon_nil rest hnm] at h
    rcases List.mem_cons.mp h with h | h
    · cases h
    · exact ih s h
  | case3 rest hnm hq ih =>
    intro s h
    rw [tokenize_param_opt rest hnm hq] at h
    rcases List.mem_cons.mp h with h | h
    · cases h
    · exact ih s h
  | case4 rest hnm hq ih =>
    intro s h
    rw [tokenize_param_req rest hnm hq] at h
    rcases List.mem_cons.mp h with h | h
    · cases h
    · exact ih s h
  | case5 rest hc hne ih =>
    intro s h
    rw [tokenize_open_nil rest hc] at h
    rcases List.mem_cons.mp h with h | h
    · cases h
    · exact ih s h
  | case6 rest hc hne ih =>
    intro s h
    rw [tokenize_grp_eq rest hc] at h
    rcases List.mem_cons.mp h with h | h
    · injection h with h2
      rw [h2]
      rfl
    · exact ih s h
  | case7 c rest hc1 hc2 ih =>
    intro s h
    rw [tokenize_lit c rest hc1 hc2] at h
    rcases List.mem_cons.mp h with h | h
    · cases h
    · exact ih s h

/-- tokenize_no_lit_in_matches: the match list of a path contains no literal
tokens. -/
theorem tokenize_no_lit_in_matches (p : Str) :
    ∀ c, Tok.lit c ∉ matchToks p := by
  intro c h
  simp only [matchToks, List.mem_filter] at h
  exact absurd h.2 (by simp [isMatchTok])

/-- paramsLoop_eq_spec: on a token list without literal tokens and whose raw
groups start with a parenthesis (as the scanner guarantees), the code-side
loop, which tests whether the matched text starts with a colon, agrees with
the constructor-driven specification loop. -/
theorem paramsLoop_eq_spec (ts : List Tok)
    (hg : ∀ s, Tok.grp s ∈ ts → s.head? = some '(')
    (hl : ∀ c, Tok.lit c ∉ ts) :
    ∀ k, paramsLoop k ts = specParamsLoop k ts := by
  induction ts with
  | nil => intro k; rfl
  | cons t ts ih =>
    intro k
    have hg2 : ∀ s, Tok.grp s ∈ ts → s.head? = some '(' :=
      fun s hs => hg s (List.mem_cons_of_mem t hs)
    have hl2 : ∀ c, Tok.lit c ∉ ts :=
      fun c hc => hl c (List.mem_cons_of_mem t hc)
    cases t with
    | lit c => exact absurd (List.mem_cons_self _ _) (hl c)
    | param nm opt =>
      simp [paramsLoop, specParamsLoop, matchStr, ih hg2 hl2]
    | grp s =>
      have hs : s.head? = some '(' := hg s (List.mem_cons_self _ _)
      simp [paramsLoop, specParamsLoop, matchStr, hs, ih hg2 hl2]

/-- paramsLoop_getElem: the entry at index i of the parameter loop output. -/
theorem paramsLoop_getElem (ts : List Tok) :
    ∀ k i, (paramsLoop k ts)[i]? =
      (ts[i]?).map (fun t =>
        if (matchStr t).head? = some ':' then
          (match t with | .param nm _ => nm | _ => ([] : Str))
        else natDigits (k + i)) := by
  induction ts with
  | nil => intro k i; simp [paramsLoop]
  | cons t ts ih =>
    intro k i
    cases i with
    | zero => simp [paramsLoop]
    | succ n =>
      simp only [paramsLoop, List.getElem?_cons_succ, ih (k + 1) n]
      have : k + 1 + n = k + (n + 1) := by omega
      rw [this]

/-- C5 counterexample: the claim numbers raw groups 0, 1, ... independently of
named parameters, so the raw group of the first path should be named 0; the
code numbers matches by their index among all matches and records 1. The
second path shows two textual raw groups do not even produce two matches: the
raw-group match is greedy up to the end of the path, so both fall into one
match named 0. -/
theorem c5_counterexample :
    paramsFromPath (S "/:a/(x)") = [S "a", S "1"] ∧
    paramsFromPath (S "/(x)/(y)") = [S "0"] ∧
    (S "1" : Str) ≠ S "0" := by decide

/-- C5 amended: freezing records parameter names in declaration order; a named
parameter records its name and a raw-group match records the decimal
representation of its index among all matches (named and raw alike); distinct
raw-group matches therefore receive distinct numeric names equal to their
match indices. -/
theorem c5_param_extraction (p : Str) :
    paramsFromPath p = specParams p ∧
    (∀ i j si sj, i ≠ j →
      (matchToks p)[i]? = some (.grp si) → (matchToks p)[j]? = some (.grp sj) →
      (paramsFromPath p)[i]? = some (natDigits i) ∧
      (paramsFromPath p)[j]? = some (natDigits j) ∧
      natDigits i ≠ natDigits j) := by
  have hg : ∀ s, Tok.grp s ∈ matchToks p → s.head? = some '(' := fun s hs =>
    tokenize_grp_head p s (List.mem_of_mem_filter hs)
  have hgete : ∀ i s, (matchToks p)[i]? = some (.grp s) →
      (paramsFromPath p)[i]? = some (natDigits i) := by
    intro i s hi
    have hs : s.head? = some '(' := hg s (List.getElem?_mem hi)
    have := paramsLoop_getElem (matchToks p) 0 i
    rw [hi] at this
    simp [matchStr, hs] at this
    rw [show paramsFromPath p = paramsLoop 0 (matchToks p) from rfl, this]
  constructor
  · exact paramsLoop_eq_spec _ hg (tokenize_no_lit_in_matches p) 0
  · intro i j si sj hij hi hj
    exact ⟨hgete i si hi, hgete j sj hj, fun hd => hij (natDigits_inj hd)⟩

/-- Witness for C5 amended: a path whose raw groups are separated by a newline
produces two raw-group matches, named by their match indices 0 and 1. -/
theorem c5_param_extraction_witness :
    paramsFromPath (S "/(x)\n/(y)") = specParams (S "/(x)\n/(y)") ∧
    ((paramsFromPath (S "/(x)\n/(y)"))[0]? = some (natDigits 0) ∧
     (paramsFromPath (S "/(x)\n/(y)"))[1]? = some (natDigits 1) ∧
     natDigits 0 ≠ natDigits 1) :=
  ⟨(c5_param_extraction (S "/(x)\n/(y)")).1,
   (c5_param_extraction (S "/(x)\n/(y)")).2 0 1 (S "(x)") (S "(y)")
     (by decide) (by decide) (by decide)⟩

/-!
Theorems: capture-group counting (C9).
-/

/-- paramsLoop_length: the loop yields one parameter per match. -/
theorem paramsLoop_length (ts : List Tok) : ∀ k, (paramsLoop k ts).length = ts.length := by
  induction ts with
  | nil => intro k; rfl
  | cons t ts ih => intro k; simp [paramsLoop, ih (k + 1)]

/-- bindLoop_isSome: the positional binding loop succeeds when there are at
most as many submatches as parameters. -/
theorem bindLoop_isSome (subs params : List Str) (h : subs.length ≤ params.length) :
    (bindLoop params subs).isSome := by
  induction subs generalizing params with
  | nil => simp [bindLoop]
  | cons v vs ih =>
    cases params with
    | nil => simp at h
    | cons q qs =>
      simp only [bindLoop]
      have := ih qs (by simpa using h)
      cases hb : bindLoop qs vs with
      | none => rw [hb] at this; simp at this
      | some l => simp

/-- tokRepl_count: under the counting hypotheses, every match token is
replaced by a fragment with exactly one opening parenthesis, and every
literal character other than an opening parenthesis contributes none. -/
theorem tokRepl_count (A : List (Str × Str)) (t : Tok)
    (hA : ∀ nm, lookupD A nm ≠ [] → capGroupCount (lookupD A nm) = 1)
    (hlit : ∀ c, t = .lit c → c ≠ '(')
    (hgrp : ∀ s, t = .grp s → s.getLast? = some ')' → capGroupCount s = 1) :
    capGroupCount (tokRepl A t) = if isMatchTok t then 1 else 0 := by
  have hdefault : capGroupCount DefaultParamPat = 1 := by decide
  have hwrap : ∀ a : Str, capGroupCount ('?' :: a ++ ['?']) = capGroupCount a := by
    intro a
    simp [capGroupCount, List.count_cons, List.count_append]
  cases t with
  | lit c =>
    have := hlit c rfl
    simp [tokRepl, isMatchTok, capGroupCount, List.count_cons, this]
  | param nm opt =>
    simp only [tokRepl, isMatchTok, if_true]
    by_cases hfa : firstWord (matchStr (.param nm opt)) ≠ [] ∧
        lookupD A (firstWord (matchStr (.param nm opt))) ≠ []
    · rw [if_pos hfa]
      by_cases hq : (matchStr (.param nm opt)).getLast? = some '?'
      · rw [if_pos hq, hwrap]
        exact hA _ hfa.2
      · rw [if_neg hq]
        exact hA _ hfa.2
    · rw [if_neg hfa]
      have hh : (matchStr (.param nm opt)).head? = some ':' := rfl
      rw [if_neg (by rw [hh]; simp)]
      by_cases hq : (matchStr (.param nm opt)).getLast? = some '?'
      · rw [if_pos hq, hwrap, hdefault]
      · rw [if_neg hq, hdefault]
  | grp s =>
    simp only [tokRepl, isMatchTok, if_true]
    by_cases hfa : firstWord (matchStr (.grp s)) ≠ [] ∧
        lookupD A (firstWord (matchStr (.grp s))) ≠ []
    · rw [if_pos hfa]
      by_cases hq : (matchStr (.grp s)).getLast? = some '?'
      · rw [if_pos hq, hwrap]
        exact hA _ hfa.2
      · rw [if_neg hq]
        exact hA _ hfa.2
    · rw [if_neg hfa]
      by_cases hv : (matchStr (.grp s)).head? = some '(' ∧ (matchStr (.grp s)).getLast? = some ')'
      · rw [if_pos hv]
        exact hgrp s rfl hv.2
      · rw [if_neg hv]
        by_cases hq : (matchStr (.grp s)).getLast? = some '?'
        · rw [if_pos hq, hwrap, hdefault]
        · rw [if_neg hq, hdefault]

/-- count_flatMap_toks: replacing every token yields one opening parenthesis
per match token. -/
theorem count_flatMap_toks (A : List (Str × Str)) (toks : List Tok)
    (hA : ∀ nm, lookupD A nm ≠ [] → capGroupCount (lookupD A nm) = 1)
    (hlit : ∀ c, Tok.lit c ∈ toks → c ≠ '(')
    (hgrp : ∀ s, Tok.grp s ∈ toks → s.getLast? = some ')' → capGroupCount s = 1) :
    capGroupCount (toks.flatMap (tokRepl A)) = (toks.filter isMatchTok).length := by
  induction toks with
  | nil => rfl
  | cons t ts ih =>
    have h1 : capGroupCount (tokRepl A t) = if isMatchTok t then 1 else 0 :=
      tokRepl_count A t hA
        (fun c hc => hlit c (hc ▸ List.mem_cons_self _ _))
        (fun s hs hl2 => hgrp s (hs ▸ List.mem_cons_self _ _) hl2)
    have h2 := ih (fun c hc => hlit c (List.mem_cons_of_mem t hc))
      (fun s hs hl2 => hgrp s (List.mem_cons_of_mem t hs) hl2)
    simp only [List.flatMap_cons, capGroupCount, List.count_append] at *
    rw [h1, h2]
    by_cases hm : isMatchTok t <;> simp [hm, List.filter_cons] <;> omega

/-- C9 counterexample: the path with two raw groups satisfies the claim
hypothesis (neither group has nested capture groups), yet the compiled
pattern has two capture groups while params has one entry, and the positional
binding loop runs out of parameter names on the two submatches of a matching
request (a runtime index panic in Go). -/
theorem c9_counterexample :
    (freezeRoute (newRoute (S "/(a)/(b)"))).patternStr = some (S "^/(a)/(b)/?$") ∧
    capGroupCount (S "^/(a)/(b)/?$") = 2 ∧
    (freezeRoute (newRoute (S "/(a)/(b)"))).params.length = 1 ∧
    bindLoop (freezeRoute (newRoute (S "/(a)/(b)"))).params [S "a", S "b"] = none := by
  refine ⟨by decide, by decide, by decide, by decide⟩

/-- C9 amended: for an unfrozen route with no pre-existing params whose stored
assertions each contain exactly one opening parenthesis (their fragments have
no capture groups), whose unmatched path characters include no opening
parenthesis, and whose raw-group match (when it ends in a closing parenthesis
and is kept verbatim) contains exactly one opening parenthesis, the compiled
pattern has exactly as many capture groups as the params list has entries, so
the positional binding loop of dispatch never indexes params out of bounds. -/
theorem c9_capture_group_alignment (r : Route) (hf : r.frozen = false)
    (hp : r.params = [])
    (hA : ∀ nm, lookupD r.assertions nm ≠ [] → capGroupCount (lookupD r.assertions nm) = 1)
    (hlit : ∀ c, Tok.lit c ∈ tokenize r.path → c ≠ '(')
    (hgrp : ∀ s, Tok.grp s ∈ tokenize r.path → s.getLast? = some ')' → capGroupCount s = 1) :
    ∃ pat, (freezeRoute r).patternStr = some pat ∧
      capGroupCount pat = (freezeRoute r).params.length ∧
      (∀ subs : List Str, subs.length = capGroupCount pat →
        (bindLoop ((freezeRoute r).params) subs).isSome) := by
  have hflat := count_flatMap_toks r.assertions (tokenize r.path) hA hlit hgrp
  have hcount : capGroupCount (compilePathPattern r.assertions r.passthrough r.path) =
      capGroupCount ((tokenize r.path).flatMap (tokRepl r.assertions)) := by
    simp only [compilePathPattern]
    by_cases hsl : ((tokenize r.path).flatMap (tokRepl r.assertions)).getLast? = some '/' <;>
      by_cases hpt : r.passthrough <;>
        simp [hsl, hpt, capGroupCount, List.count_append, List.count_cons]
  have hparams : (freezeRoute r).params = paramsFromPath r.path := by
    simp [freezeRoute, hf, hp]
  have heq : capGroupCount (compilePathPattern r.assertions r.passthrough r.path) =
      (freezeRoute r).params.length := by
    rw [hcount, hflat, hparams, paramsFromPath, paramsLoop_length]
  refine ⟨compilePathPattern r.assertions r.passthrough r.path,
    by simp [freezeRoute, hf], heq, ?_⟩
  intro subs hs
  apply bindLoop_isSome
  rw [hs, heq]

/-- Witness for C9 amended: a route asserting a digit pattern for its one
named parameter; the compiled pattern has exactly one capture group for the
one parameter and binding always succeeds on one submatch. -/
theorem c9_capture_group_alignment_witness :
    ∃ pat, (freezeRoute (assertParam (S "id") (S "\\d+") (newRoute (S "/:id")))).patternStr =
        some pat ∧
      capGroupCount pat =
        (freezeRoute (assertParam (S "id") (S "\\d+") (newRoute (S "/:id")))).params.length ∧
      (∀ subs : List Str, subs.length = capGroupCount pat →
        (bindLoop ((freezeRoute (assertParam (S "id") (S "\\d+")
          (newRoute (S "/:id")))).params) subs).isSome) := by
  have htoks : tokenize (S "/:id") = [.lit '/', .param (S "id") false] := by decide
  have hpath : (assertParam (S "id") (S "\\d+") (newRoute (S "/:id"))).path = S "/:id" := by
    decide
  have hass : (assertParam (S "id") (S "\\d+") (newRoute (S "/:id"))).assertions =
      [(S "id", '(' :: (S "\\d+" ++ [')']))] := by decide
  refine c9_capture_group_alignment _ (by decide) (by decide) ?_ ?_ ?_
  · intro nm h
    rw [hass] at h ⊢
    by_cases he : nm = S "id"
    · subst he; decide
    · exfalso
      apply h
      simp only [lookupD]
      rw [if_neg (fun hx => he hx.symm)]
  · intro c hc
    rw [hpath, htoks] at hc
    simp at hc
    subst hc
    decide
  · intro s hs hl
    rw [hpath, htoks] at hs
    simp at hs

/-!
Theorems: parsing and matching of literal path fragments (C6, C8).
-/

/-- isLitChar_ne: a literal path character is none of the scanner or regexp
special characters. -/
theorem isLitChar_ne {c : Char} (h : isLitChar c = true) :
    c ≠ ':' ∧ c ≠ '(' ∧ c ≠ '\\' ∧ c ≠ ')' ∧ c ≠ '?' ∧ c ≠ '+' ∧ c ≠ '*' ∧
      c ≠ '|' ∧ c ≠ '.' := by
  refine ⟨?_, ?_, ?_, ?_, ?_, ?_, ?_, ?_, ?_⟩ <;> (rintro rfl; exact absurd h (by decide))

/-- tokenize_lit_append: literal path characters scan to literal tokens. -/
theorem tokenize_lit_append (l r : Str) (h : ∀ c ∈ l, isLitChar c = true) :
    tokenize (l ++ r) = l.map Tok.lit ++ tokenize r := by
  induction l with
  | nil => simp
  | cons c l2 ih =>
    have hc := isLitChar_ne (h c (List.mem_cons_self _ _))
    rw [List.cons_append, tokenize_lit c _ hc.1 hc.2.1,
      ih (fun d hd => h d (List.mem_cons_of_mem c hd))]
    rfl

/-- tokRepl_lits: replacement is the identity on unmatched literal text. -/
theorem tokRepl_lits (A : List (Str × Str)) (l : Str) :
    (l.map Tok.lit).flatMap (tokRepl A) = l := by
  induction l with
  | nil => rfl
  | cons c l2 ih => simp [tokRepl, ih]

/-- lexPat_cons_plain: a character that is no operator lexes to a literal
atom. -/
theorem lexPat_cons_plain (c : Char) (r : Str) (h1 : c ≠ '\\') (h2 : c ≠ '(')
    (h3 : c ≠ ')') (h4 : c ≠ '?') (h5 : c ≠ '+') (h6 : c ≠ '*') (h7 : c ≠ '|')
    (h8 : c ≠ '.') :
    lexPat (c :: r) = .atom (.lit c) :: lexPat r := by
  rw [lexPat.eq_def]
  simp only []
  rw [if_neg h1, if_neg h2, if_neg h3, if_neg h4, if_neg h5, if_neg h6,
    if_neg h7, if_neg h8]

/-- lexPat_lit_append: literal path characters lex to literal atoms. -/
theorem lexPat_lit_append (l r : Str) (h : ∀ c ∈ l, isLitChar c = true) :
    lexPat (l ++ r) = l.map (fun c => PTok.atom (.lit c)) ++ lexPat r := by
  induction l with
  | nil => simp
  | cons c l2 ih =>
    obtain ⟨n1, n2, n3, n4, n5, n6, n7, n8, n9⟩ := isLitChar_ne (h c (List.mem_cons_self _ _))
    rw [List.cons_append, lexPat_cons_plain c _ n3 n2 n4 n5 n6 n7 n8 n9,
      ih (fun d hd => h d (List.mem_cons_of_mem c hd))]
    rfl

/-- foldl_parseStep_atoms: a run of atoms pushes onto the current branch. -/
theorem foldl_parseStep_atoms (as : List RE) :
    ∀ (stk : List PFrame) (f : PFrame) (ts : List PTok),
      ((as.map PTok.atom ++ ts).foldl parseStep (stk, f)) =
        ts.foldl parseStep (stk, ⟨f.alts, as.reverse ++ f.cur⟩) := by
  induction as with
  | nil => intro stk f ts; simp
  | cons a as2 ih =>
    intro stk f ts
    simp only [List.map_cons, List.cons_append, List.foldl_cons, parseStep, pushAtom]
    rw [ih]
    simp

/-- lit_split inverts a literal membership. -/
theorem lit_split {c : Char} {w : Str} (h : LMem (.lit c) w) : w = [c] := by
  cases h; rfl

/-- eps_split inverts an empty-string membership. -/
theorem eps_split {w : Str} (h : LMem .eps w) : w = [] := by
  cases h; rfl

/-- lmem_lits_append: a concatenation starting with a run of literals consumes
exactly those literals first. -/
theorem lmem_lits_append (q : Str) (l : List RE) :
    ∀ s, LMem (catListRE (q.map RE.lit ++ l)) s ↔ ∃ v, s = q ++ v ∧ LMem (catListRE l) v := by
  induction q with
  | nil =>
    intro s
    simp only [List.map_nil, List.nil_append]
    exact ⟨fun h => ⟨s, rfl, h⟩, fun ⟨v, hv, h⟩ => hv ▸ h⟩
  | cons c q2 ih =>
    intro s
    simp only [List.map_cons, List.cons_append]
    constructor
    · intro h
      obtain ⟨u, v, huv, hu, hv⟩ := cat_split h
      obtain rfl := lit_split hu
      obtain ⟨w, hw1, hw2⟩ := (ih v).mp hv
      exact ⟨w, by simp [huv, hw1], hw2⟩
    · rintro ⟨v, rfl, hv⟩
      have h2 := (ih (q2 ++ v)).mpr ⟨v, rfl, hv⟩
      have := LMem.catm (LMem.lit c) h2
      simpa using this

/-- parseBody_lit_opt_slash: the body built for a literal path (the path with
any trailing slash stripped, then an optional slash) parses to the literal
sequence followed by an optional slash. -/
theorem parseBody_lit_opt_slash (q : Str) (hq : ∀ c ∈ q, isLitChar c = true) :
    parseBody (lexPat (q ++ ['/', '?'])) =
      catListRE (q.map RE.lit ++ [.alt .eps (.lit '/')]) := by
  rw [lexPat_lit_append q ['/', '?'] hq]
  have hx : lexPat ['/', '?'] = [.atom (.lit '/'), .post .quest] := by decide
  rw [hx]
  have hmap : q.map (fun c => PTok.atom (RE.lit c)) = (q.map RE.lit).map PTok.atom := by
    simp
  rw [hmap]
  simp only [parseBody, foldl_parseStep_atoms, List.foldl_cons, List.foldl_nil,
    parseStep, pushAtom, applyPostFrame, applyPostOp, frameRE, altListRE, List.foldl_nil]
  simp [catListRE]

/-- lmem_opt_slash: the trailing optional-slash fragment accepts exactly the
empty string and one slash. -/
theorem lmem_opt_slash (v : Str) :
    LMem (catListRE [RE.alt .eps (.lit '/')]) v ↔ v = [] ∨ v = ['/'] := by
  constructor
  · intro h
    obtain ⟨u, w, huw, hu, hw⟩ := cat_split h
    obtain rfl := eps_split hw
    rcases alt_split hu with h2 | h2
    · obtain rfl := eps_split h2
      simp at huw
      exact Or.inl huw
    · obtain rfl := lit_split h2
      simp at huw
      exact Or.inr huw
  · rintro (rfl | rfl)
    · exact LMem.catm (.altl .eps) .eps
    · have h0 : LMem (RE.alt .eps (.lit '/')) ['/'] := LMem.altr (LMem.lit '/')
      have := LMem.catm h0 LMem.eps
      simpa using this

/-- compiledMatches_anchored: a pattern with both anchors matches by whole
string membership of its body. -/
theorem compiledMatches_anchored (body s : Str) :
    compiledMatches ('^' :: body ++ ['$']) s = fullMatch (parseBody (lexPat body)) s := by
  show compiledMatches ('^' :: (body ++ ['$'])) s = _
  simp [compiledMatches, List.getLast?_concat, List.dropLast_concat]

/-- compilePathPattern_lit: the compiled pattern of a literal path under no
assertions, non-passthrough, is the anchored literal with optional trailing
slash, phrased via the stripped path. -/
theorem compilePathPattern_lit (p : Str) (hp : ∀ c ∈ p, isLitChar c = true) :
    compilePathPattern [] false p = '^' :: (stripSlash p ++ ['/', '?']) ++ ['$'] := by
  have hsp : (tokenize p).flatMap (tokRepl []) = p := by
    have h0 := tokenize_lit_append p [] hp
    rw [show tokenize ([] : Str) = [] by decide] at h0
    simp only [List.append_nil] at h0
    rw [h0, tokRepl_lits]
  simp only [compilePathPattern, hsp]
  by_cases hl : p.getLast? = some '/'
  · rw [if_pos hl]
    have hne : p ≠ [] := by rintro rfl; simp at hl
    have hsplit : p.dropLast ++ ['/'] = p := by
      have h2 := List.dropLast_append_getLast hne
      rwa [List.getLast_eq_iff_getLast?_eq_some hne |>.mpr hl] at h2
    simp only [stripSlash, if_pos hl]
    rw [show p.dropLast ++ ['/', '?'] = (p.dropLast ++ ['/']) ++ ['?'] by simp, hsplit]
    simp
  · rw [if_neg hl]
    simp only [stripSlash, if_neg hl]
    simp

/-- freezeRoute_patternStr: freezing an unfrozen route installs the compiled
pattern string built from path, assertions and the passthrough flag. -/
theorem freezeRoute_patternStr (r : Route) (h : r.frozen = false) :
    (freezeRoute r).patternStr =
      some (compilePathPattern r.assertions r.passthrough r.path) := by
  simp [freezeRoute, h]

/-- C6 counterexample: the claim allows a trailing slash only when the
declared path does not already end in one, so for the path consisting of foo
with a trailing slash only that exact string should match; the compiled
pattern makes the trailing slash optional and also matches the path without
it. -/
theorem c6_counterexample :
    (freezeRoute (newRoute (S "/foo/"))).patternStr = some (S "^/foo/?$") ∧
    patternMatcherMatch (S "^/foo/?$") (S "/foo") = true ∧
    (S "/foo" : Str) ≠ S "/foo/" ∧
    (S "/foo" : Str) ≠ S "/foo/" ++ ['/'] := by
  refine ⟨by decide, by decide, by decide, by decide⟩

/-- C6 amended: for a non-passthrough route whose path consists of literal
characters (letters, digits, slash, underscore, hyphen — no parameters, no
groups, no regexp metacharacters), the compiled pattern matches exactly two
strings: the path with any trailing slash removed, and that same string with
one trailing slash appended. -/
theorem c6_static_path_matching (p s : Str) (hp : ∀ c ∈ p, isLitChar c = true) :
    ∃ pat, (freezeRoute (newRoute p)).patternStr = some pat ∧
      (patternMatcherMatch pat s = true ↔
        s = stripSlash p ∨ s = stripSlash p ++ ['/']) := by
  have hq : ∀ c ∈ stripSlash p, isLitChar c = true := by
    intro c hc
    apply hp
    simp only [stripSlash] at hc
    split at hc
    · exact List.mem_of_mem_dropLast hc
    · exact hc
  refine ⟨compilePathPattern [] false p, freezeRoute_patternStr (newRoute p) rfl, ?_⟩
  rw [show patternMatcherMatch (compilePathPattern [] false p) s =
      compiledMatches (compilePathPattern [] false p) s from rfl]
  rw [compilePathPattern_lit p hp, compiledMatches_anchored,
    parseBody_lit_opt_slash (stripSlash p) hq, fullMatch_iff]
  constructor
  · intro h
    obtain ⟨v, rfl, hv⟩ := (lmem_lits_append _ _ s).mp h
    rcases (lmem_opt_slash v).mp hv with rfl | rfl
    · exact Or.inl (by simp)
    · exact Or.inr rfl
  · rintro (rfl | rfl)
    · exact (lmem_lits_append _ _ _).mpr
        ⟨[], by simp, (lmem_opt_slash []).mpr (Or.inl rfl)⟩
    · exact (lmem_lits_append _ _ _).mpr
        ⟨['/'], rfl, (lmem_opt_slash ['/']).mpr (Or.inr rfl)⟩

/-- Witness for C6 amended: the path of foo with a trailing slash matches the
string without the slash. -/
theorem c6_static_path_matching_witness :
    (∃ pat, (freezeRoute (newRoute (S "/foo/"))).patternStr = some pat ∧
      (patternMatcherMatch pat (S "/foo") = true ↔
        S "/foo" = stripSlash (S "/foo/") ∨
        S "/foo" = stripSlash (S "/foo/") ++ ['/'])) ∧
    stripSlash (S "/foo/") = S "/foo" :=
  ⟨c6_static_path_matching (S "/foo/") (S "/foo") (by decide), by decide⟩

/-- takeWhile_word_concat: a word run followed by a question mark is cut at
the question mark. -/
theorem takeWhile_word_concat (nm : Str) (h : ∀ c ∈ nm, isWordChar c = true) :
    (nm ++ ['?']).takeWhile isWordChar = nm := by
  induction nm with
  | nil => decide
  | cons c r ih =>
    have hc : isWordChar c = true := h c (List.mem_cons_self _ _)
    simp only [List.cons_append, List.takeWhile_cons, hc, if_true]
    rw [ih (fun d hd => h d (List.mem_cons_of_mem c hd))]

/-- tokenize_opt_param: a literal path followed by a slash and an optional
named parameter scans to the literals and one optional parameter token. -/
theorem tokenize_opt_param (pre nm : Str) (hpre : ∀ c ∈ pre, isLitChar c = true)
    (hnm1 : nm ≠ []) (hnm2 : ∀ c ∈ nm, isWordChar c = true) :
    tokenize (pre ++ '/' :: ':' :: nm ++ ['?']) =
      (pre ++ ['/']).map Tok.lit ++ [.param nm true] := by
  have h1 : ∀ c ∈ pre ++ ['/'], isLitChar c = true := by
    intro c hc
    rcases List.mem_append.mp hc with hc | hc
    · exact hpre c hc
    · simp at hc; subst hc; decide
  have hsh : pre ++ '/' :: ':' :: nm ++ ['?'] = (pre ++ ['/']) ++ (':' :: (nm ++ ['?'])) := by
    simp
  rw [hsh, tokenize_lit_append _ _ h1]
  congr 1
  have htw : (nm ++ ['?']).takeWhile isWordChar = nm := takeWhile_word_concat nm hnm2
  have hdrop : (nm ++ ['?']).drop ((nm ++ ['?']).takeWhile isWordChar).length = ['?'] := by
    rw [htw]
    exact List.drop_left nm ['?']
  rw [tokenize_param_opt (nm ++ ['?']) (by rw [htw]; exact hnm1) (by rw [hdrop]; rfl)]
  rw [htw, show List.drop nm.length (nm ++ ['?']) = ['?'] from List.drop_left nm ['?']]
  rw [show (['?'] : Str).tail = [] from rfl, show tokenize ([] : Str) = [] by decide]

/-- tokRepl_param_opt_default: with no assertion for the parameter, an
optional named parameter is replaced by the optional default pattern. -/
theorem tokRepl_param_opt_default (nm : Str) :
    tokRepl [] (.param nm true) = '?' :: DefaultParamPat ++ ['?'] := by
  have hlast : (matchStr (.param nm true)).getLast? = some '?' := by
    show (':' :: (nm ++ ['?'])).getLast? = some '?'
    rw [show ':' :: (nm ++ ['?']) = (':' :: nm) ++ ['?'] from rfl]
    exact List.getLast?_concat _
  simp only [tokRepl, lookupD]
  rw [if_neg (by simp)]
  rw [if_neg (by simp [matchStr])]
  rw [if_pos hlast]

/-- compilePathPattern_opt_param: the compiled pattern of the optional
parameter schema. -/
theorem compilePathPattern_opt_param (pre nm : Str)
    (hpre : ∀ c ∈ pre, isLitChar c = true)
    (hnm1 : nm ≠ []) (hnm2 : ∀ c ∈ nm, isWordChar c = true) :
    compilePathPattern [] false (pre ++ '/' :: ':' :: nm ++ ['?']) =
      '^' :: (pre ++ ('/' :: '?' :: DefaultParamPat ++ ['?', '/', '?'])) ++ ['$'] := by
  have hsp : (tokenize (pre ++ '/' :: ':' :: nm ++ ['?'])).flatMap (tokRepl []) =
      (pre ++ ['/']) ++ ('?' :: DefaultParamPat ++ ['?']) := by
    rw [tokenize_opt_param pre nm hpre hnm1 hnm2]
    rw [List.flatMap_append, tokRepl_lits]
    simp [tokRepl_param_opt_default]
  have hlast : List.getLast? (pre ++ ['/'] ++ ('?' :: DefaultParamPat ++ ['?'])) = some '?' := by
    rw [show pre ++ ['/'] ++ ('?' :: DefaultParamPat ++ ['?']) =
        (pre ++ ['/'] ++ ('?' :: DefaultParamPat)) ++ ['?'] by simp, List.getLast?_concat]
  simp only [compilePathPattern, hsp]
  rw [if_neg (show ¬(false = true) from by decide)]
  rw [if_neg (by rw [hlast]; decide)]
  simp

/-- parseBody_opt_param: the body of the optional parameter schema parses to
literals, an optional slash, an optional word group and an optional trailing
slash. -/
theorem parseBody_opt_param (pre : Str) (hpre : ∀ c ∈ pre, isLitChar c = true) :
    parseBody (lexPat (pre ++ ('/' :: '?' :: DefaultParamPat ++ ['?', '/', '?']))) =
      catListRE (pre.map RE.lit ++
        [.alt .eps (.lit '/'),
         .alt .eps (.cat (.cat (.cls .word) (.star (.cls .word))) .eps),
         .alt .eps (.lit '/')]) := by
  rw [lexPat_lit_append pre _ hpre]
  have hx : lexPat ('/' :: '?' :: DefaultParamPat ++ ['?', '/', '?']) =
      [.atom (.lit '/'), .post .quest, .lparen, .atom (.cls .word), .post .plusP,
       .rparen, .post .quest, .atom (.lit '/'), .post .quest] := by decide
  rw [hx]
  have hmap : pre.map (fun c => PTok.atom (RE.lit c)) = (pre.map RE.lit).map PTok.atom := by
    simp
  rw [hmap]
  simp only [parseBody, foldl_parseStep_atoms, List.foldl_cons, List.foldl_nil,
    parseStep, pushAtom, applyPostFrame, applyPostOp, frameRE, altListRE]
  simp [catListRE]

/-- lmem_word_star: any word-character string is in the starred word class. -/
theorem lmem_word_star (v : Str) (h : ∀ c ∈ v, isWordChar c = true) :
    LMem (.star (.cls .word)) v := by
  induction v with
  | nil => exact .star0
  | cons c r ih =>
    have : LMem (.star (.cls .word)) ([c] ++ r) :=
      .stars (.cls (h c (List.mem_cons_self _ _)))
        (ih (fun d hd => h d (List.mem_cons_of_mem c hd)))
    simpa using this

/-- C8: a route whose path ends in an optional named parameter accepts both
the request path with the parameter segment absent and the one with it
present (a slash and any non-empty word value). -/
theorem c8_optional_parameter (pre nm v : Str)
    (hpre : ∀ c ∈ pre, isLitChar c = true)
    (hnm1 : nm ≠ []) (hnm2 : ∀ c ∈ nm, isWordChar c = true)
    (hv1 : v ≠ []) (hv2 : ∀ c ∈ v, isWordChar c = true) :
    ∃ pat, (freezeRoute (newRoute (pre ++ '/' :: ':' :: nm ++ ['?']))).patternStr = some pat ∧
      patternMatcherMatch pat pre = true ∧
      patternMatcherMatch pat (pre ++ '/' :: v) = true := by
  refine ⟨compilePathPattern [] false (pre ++ '/' :: ':' :: nm ++ ['?']),
    freezeRoute_patternStr _ rfl, ?_, ?_⟩
  all_goals
    rw [show ∀ s, patternMatcherMatch (compilePathPattern [] false
        (pre ++ '/' :: ':' :: nm ++ ['?'])) s =
        compiledMatches (compilePathPattern [] false (pre ++ '/' :: ':' :: nm ++ ['?'])) s
      from fun s => rfl]
    rw [compilePathPattern_opt_param pre nm hpre hnm1 hnm2, compiledMatches_anchored,
      parseBody_opt_param pre hpre, fullMatch_iff]
  · exact (lmem_lits_append pre _ pre).mpr ⟨[], by simp, by
      have h1 : LMem (RE.alt .eps (.lit '/')) [] := .altl .eps
      have h2 : LMem (RE.alt .eps (.cat (.cat (.cls .word) (.star (.cls .word))) .eps)) [] :=
        .altl .eps
      have := LMem.catm h1 (LMem.catm h2 (LMem.catm h1 LMem.eps))
      simpa [catListRE] using this⟩
  · refine (lmem_lits_append pre _ (pre ++ '/' :: v)).mpr ⟨'/' :: v, rfl, ?_⟩
    have hgrp : LMem (RE.cat (.cat (.cls .word) (.star (.cls .word))) .eps) v := by
      cases v with
      | nil => exact absurd rfl hv1
      | cons c r =>
        have hw : LMem (RE.cat (.cls .word) (.star (.cls .word))) (c :: r) := by
          have := LMem.catm
            (LMem.cls (show clsTest CCls.word c = true from hv2 c (List.mem_cons_self _ _)))
            (lmem_word_star r (fun d hd => hv2 d (List.mem_cons_of_mem c hd)))
          simpa using this
        have := LMem.catm hw LMem.eps
        simpa using this
    have h1 : LMem (RE.alt .eps (.lit '/')) ['/'] := .altr (.lit '/')
    have h3 : LMem (RE.alt .eps (.lit '/')) [] := .altl .eps
    have h2 : LMem (RE.alt .eps (.cat (.cat (.cls .word) (.star (.cls .word))) .eps)) v :=
      .altr hgrp
    have := LMem.catm h1 (LMem.catm h2 (LMem.catm h3 LMem.eps))
    simpa [catListRE] using this

/-- Witness for C8 at a concrete path and value. -/
theorem c8_optional_parameter_witness :
    ∃ pat, (freezeRoute (newRoute (S "/users" ++ '/' :: ':' :: S "id" ++ ['?']))).patternStr =
        some pat ∧
      patternMatcherMatch pat (S "/users") = true ∧
      patternMatcherMatch pat (S "/users" ++ '/' :: S "42") = true :=
  c8_optional_parameter (S "/users") (S "id") (S "42")
    (by decide) (by decide) (by decide) (by decide) (by decide)

/-!
Theorems: flush flattening (C4).
-/

/-- normPfx_normed: normalization fixes every already-normalized prefix. -/
theorem normPfx_normed (p : Str) (h : normedPfx p = true) : normPfx p = p := by
  simp only [normedPfx, decide_eq_true_eq] at h
  rcases h with rfl | ⟨h1, h2⟩
  · rfl
  · have hne : p ≠ [] := by rintro rfl; simp at h1
    simp [normPfx, hne, h1, h2]

/-- normedPfx_append: normalized prefixes concatenate to a normalized
prefix. -/
theorem normedPfx_append (p q : Str) (hp : normedPfx p = true) (hq : normedPfx q = true) :
    normedPfx (p ++ q) = true := by
  simp only [normedPfx, decide_eq_true_eq] at *
  rcases hp with rfl | ⟨hp1, hp2⟩
  · simpa using hq
  · rcases hq with rfl | ⟨hq1, hq2⟩
    · simpa using Or.inr ⟨hp1, hp2⟩
    · right
      have hqne : q ≠ [] := by rintro rfl; simp at hq1
      constructor
      · cases p with
        | nil => simp at hp1
        | cons a p2 => simpa using hp1
      · rw [List.getLast?_append]
        cases hgl : q.getLast? with
        | none => exact absurd (List.getLast?_eq_none_iff.mp hgl) hqne
        | some c =>
          rw [hgl] at hq2
          simpa [Option.or] using hq2

mutual
/-- flushWith_spec: on an unfrozen subtree with normalized child prefixes,
setting a normalized prefix and flushing succeeds and produces the
specification flattening under that prefix, a frozen node, and emptied frozen
descendants. -/
theorem flushWith_spec :
    ∀ (t : RTree) (newPfx : Str), normedPfx newPfx = true → unfrozenAllB t = true →
      normAllL (childrenOf t) = true →
      ∃ t2, flushWith newPfx t = some t2 ∧ pfxOf t2 = newPfx ∧
        routesOf t2 = specFlat newPfx t ∧ frozenOf t2 = true ∧ flatKidsB t2 = true
  | .mk rs pfx frozen cs hp, newPfx => by
    intro hnorm hu hnc
    simp only [unfrozenAllB, Bool.and_eq_true] at hu
    have hf : frozen = false := by simpa using hu.1
    have hnc2 : normAllL cs = true := by simpa [childrenOf] using hnc
    obtain ⟨collected, cs2, hk, hcoll, hflat⟩ := flushKids_spec cs newPfx hnorm hu.2 hnc2
    refine ⟨.mk (rs.map (freezePrefixed newPfx) ++ collected) newPfx true cs2 hp,
      ?_, rfl, ?_, rfl, ?_⟩
    · simp [flushWith, hf, normPfx_normed newPfx hnorm, hk]
    · simp [specFlat, routesOf, hcoll]
    · simp [flatKidsB, childrenOf, hflat]

/-- flushKids_spec: flushing a list of unfrozen children with normalized
prefixes collects the specification flattening of each child (with the parent
prefix concatenated) in mount order, and leaves every child emptied and
frozen. -/
theorem flushKids_spec :
    ∀ (cs : List RTree) (eff : Str), normedPfx eff = true → unfrozenAllL cs = true →
      normAllL cs = true →
      ∃ collected cs2, flushKids eff cs = some (collected, cs2) ∧
        collected = specFlatKids eff cs ∧ flatKidsL cs2 = true
  | [], eff => by
    intro hnorm hu hn
    exact ⟨[], [], by simp [flushKids], by simp [specFlatKids], by simp [flatKidsL]⟩
  | c :: cs2, eff => by
    intro hnorm hu hn
    simp only [unfrozenAllL, Bool.and_eq_true] at hu
    simp only [normAllL, Bool.and_eq_true] at hn
    have hcn : normedPfx (pfxOf c) = true ∧ normAllL (childrenOf c) = true := by
      cases c with
      | mk a b d e f =>
        have := hn.1
        simp only [normAllB, Bool.and_eq_true] at this
        exact ⟨by simpa [pfxOf] using this.1, by simpa [childrenOf] using this.2⟩
    obtain ⟨t2, hw, hpfx, hroutes, hfro, hkids⟩ :=
      flushWith_spec c (eff ++ pfxOf c) (normedPfx_append _ _ hnorm hcn.1) hu.1 hcn.2
    obtain ⟨collected, cs3, hk, hcoll, hflat⟩ := flushKids_spec cs2 eff hnorm hu.2 hn.2
    refine ⟨routesOf t2 ++ collected,
      .mk [] (pfxOf t2) (frozenOf t2) (childrenOf t2) (hasParentOf t2) :: cs3, ?_, ?_, ?_⟩
    · simp [flushKids, hw, hk]
    · simp [specFlatKids, hroutes, hcoll]
    · cases t2 with
      | mk a b d e f =>
        simp only [frozenOf] at hfro
        simp only [flatKidsB, childrenOf] at hkids
        simp [flatKidsL, routesOf, frozenOf, childrenOf, flatKidsB, hflat, hfro, hkids]
end

/-- C4 counterexample: an unfrozen table with a child the owner flushed
directly beforehand; Flush reaches setPrefix on the frozen child and panics
(modelled as none), so the flattening invariant does not hold after the
call. -/
theorem c4_counterexample :
    frozenOf (.mk [] [] false [.mk [newRoute (S "/b")] (S "/api") true [] true] false) = false ∧
    flushT (.mk [] [] false [.mk [newRoute (S "/b")] (S "/api") true [] true] false) = none :=
  ⟨rfl, rfl⟩

/-- C4 amended: after Flush on a table none of whose tables (itself or any
descendant) is frozen and whose prefixes all have the setPrefix normal form
(the shape every prefix reachable through Mount has), the routes sequence is
the specification flattening — own routes with the effective prefix prepended
and frozen, followed by all descendant routes depth-first in mount order,
a descendant effective prefix being the concatenation of the ancestor
prefixes — every descendant has an emptied route list and is frozen, and the
table is frozen. When a descendant is already frozen, Flush instead panics in
setPrefix. -/
theorem c4_flush_flattening (t : RTree)
    (hu : unfrozenAllB t = true) (hn : normAllB t = true) :
    ∃ t2, flushT t = some t2 ∧ routesOf t2 = specFlat (pfxOf t) t ∧
      frozenOf t2 = true ∧ flatKidsB t2 = true ∧ pfxOf t2 = pfxOf t := by
  cases t with
  | mk rs pfx frozen cs hp =>
    simp only [unfrozenAllB, Bool.and_eq_true] at hu
    simp only [normAllB, Bool.and_eq_true] at hn
    have hf : frozen = false := by simpa using hu.1
    have hn1 : normedPfx pfx = true := by simpa [pfxOf] using hn.1
    have hn2 : normAllL cs = true := by simpa [childrenOf] using hn.2
    obtain ⟨collected, cs2, hk, hcoll, hflat⟩ := flushKids_spec cs pfx hn1 hu.2 hn2
    refine ⟨.mk (rs.map (freezePrefixed pfx) ++ collected) pfx true cs2 hp,
      ?_, ?_, rfl, ?_, rfl⟩
    · simp [flushT, hf, hk]
    · simp [specFlat, routesOf, pfxOf, hcoll]
    · simp [flatKidsB, childrenOf, hflat]

/-- Witness for C4 amended at the specification example: mounting a child with
prefix api under a parent with prefix v1 and flushing produces the flattened
route paths starting with v1 then v1/api, with the child emptied and
everything frozen. -/
theorem c4_flush_flattening_witness :
    (∃ t2, flushT (.mk [newRoute (S "/a")] (S "/v1") false
        [.mk [newRoute (S "/b")] (S "/api") false [] true] false) = some t2 ∧
      routesOf t2 = specFlat (pfxOf (.mk [newRoute (S "/a")] (S "/v1") false
        [.mk [newRoute (S "/b")] (S "/api") false [] true] false))
        (.mk [newRoute (S "/a")] (S "/v1") false
        [.mk [newRoute (S "/b")] (S "/api") false [] true] false) ∧
      frozenOf t2 = true ∧ flatKidsB t2 = true ∧
      pfxOf t2 = pfxOf (.mk [newRoute (S "/a")] (S "/v1") false
        [.mk [newRoute (S "/b")] (S "/api") false [] true] false)) ∧
    (specFlat (S "/v1") (.mk [newRoute (S "/a")] (S "/v1") false
        [.mk [newRoute (S "/b")] (S "/api") false [] true] false)).map Route.path =
      [S "/v1/a", S "/v1/api/b"] :=
  ⟨c4_flush_flattening _ (by decide) (by decide), by decide⟩
